import Mathlib

/-!
Verification of the Wayback snapshot mirroring crawler (`crawl_wayback.py`).

The Python source is shallowly embedded: every pure helper becomes a Lean
function on `String`/`List Char`, the filesystem and the network are modeled
as explicit parameters (an initial-existence predicate for directories and a
`world` function mapping an archived address to an optional HTTP response),
and the crawl loop becomes a fuel-indexed recursive function whose state
carries the frontier, the visited set and ordered logs of the performed
effects (fetches, directory creations, file writes, frontier insertions).
Byte strings are modeled as `String` (the crawler decodes with
`errors='ignore'` and re-encodes as UTF-8; none of the verified claims
depend on byte-level decoding).
-/

set_option maxRecDepth 20000

/-! ## Generic list-of-characters helpers -/

/-- Embeds Python's `str.startswith` (character-level prefix test). -/
def pyStartsWith (s pfx : String) : Bool := pfx.data.isPrefixOf s.data

/-- Embeds Python's `str.endswith` (character-level suffix test). -/
def pyEndsWith (s sfx : String) : Bool := sfx.data.reverse.isPrefixOf s.data.reverse

/-- Drop an expected literal from the front of a list: `some rest` iff the
input is `pat ++ rest`.  Used to embed the literal parts of the Python
regular expressions. -/
def dropLit : List Char → List Char → Option (List Char)
  | [], s => some s
  | _ :: _, [] => none
  | c :: p, d :: s => if d = c then dropLit p s else none

theorem dropLit_append (p s : List Char) : dropLit p (p ++ s) = some s := by
  induction p with
  | nil => rfl
  | cons c p ih => simp [dropLit, ih]

theorem dropLit_eq_some (p s r : List Char) (h : dropLit p s = some r) : s = p ++ r := by
  induction p generalizing s with
  | nil => simpa [dropLit] using h
  | cons c p ih =>
    cases s with
    | nil => simp [dropLit] at h
    | cons d s =>
      by_cases hd : d = c
      · subst hd
        simp only [dropLit, if_pos rfl] at h
        simpa using ih s h
      · simp [dropLit, hd] at h

/-- `k` occurs (contiguously) somewhere inside `s`. -/
def isSub (k s : List Char) : Prop := ∃ p q, s = p ++ k ++ q

/-- `k` is an initial segment of `s`. -/
def isPre (k s : List Char) : Prop := ∃ q, s = k ++ q

/-- `k` is a final segment of `s`. -/
def isSuf (k s : List Char) : Prop := ∃ p, s = p ++ k

theorem isPrefixOf_iff_isPre (k s : List Char) : k.isPrefixOf s = true ↔ isPre k s := by
  induction k generalizing s with
  | nil => simp [List.isPrefixOf, isPre]
  | cons c k ih =>
    cases s with
    | nil => simp [List.isPrefixOf, isPre]
    | cons d s =>
      simp only [List.isPrefixOf, Bool.and_eq_true, beq_iff_eq, ih, isPre]
      constructor
      · rintro ⟨rfl, q, rfl⟩; exact ⟨q, rfl⟩
      · rintro ⟨q, hq⟩
        rw [List.cons_append] at hq
        cases hq
        exact ⟨rfl, q, rfl⟩

/-- Executable substring test matching `isSub`. -/
def isSubB (k s : List Char) : Bool :=
  match s with
  | [] => k.isEmpty
  | _ :: t => k.isPrefixOf s || isSubB k t

theorem isSubB_iff (k s : List Char) : isSubB k s = true ↔ isSub k s := by
  induction s with
  | nil =>
    simp only [isSubB, List.isEmpty_iff, isSub]
    constructor
    · rintro rfl; exact ⟨[], [], rfl⟩
    · rintro ⟨p, q, hpq⟩
      exact (List.append_eq_nil.mp (List.append_eq_nil.mp hpq.symm).1).2
  | cons c t ih =>
    simp only [isSubB, Bool.or_eq_true, isPrefixOf_iff_isPre, ih]
    constructor
    · rintro (⟨q, hq⟩ | ⟨p, q, hpq⟩)
      · exact ⟨[], q, by simpa using hq⟩
      · exact ⟨c :: p, q, by simp [hpq]⟩
    · rintro ⟨p, q, hpq⟩
      cases p with
      | nil => exact Or.inl ⟨q, by simpa using hpq⟩
      | cons d p =>
        rw [List.cons_append, List.cons_append] at hpq
        cases hpq
        exact Or.inr ⟨p, q, rfl⟩

instance (k s : List Char) : Decidable (isSub k s) :=
  decidable_of_iff _ (isSubB_iff k s)

instance (k s : List Char) : Decidable (isPre k s) :=
  decidable_of_iff _ (isPrefixOf_iff_isPre k s)

/-- Python's whitespace class `\s` (ASCII part, which is all the crawler meets). -/
def isPySpace (c : Char) : Bool :=
  c = ' ' || c = '\t' || c = '\n' || c = '\r' || c = '\x0b' || c = '\x0c'

/-- Python's word-character class `\w` (ASCII part), used for `\b` boundaries. -/
def isWordChar (c : Char) : Bool := c.isAlphanum || c = '_'

/-! ## URL Classifier / Normalizer (`crawl_wayback.py` lines 17-54) -/

def SNAPSHOT_TIMESTAMP : String := "20250408214013"

def WAYBACK_PREFIX : String := "https://web.archive.org/web/" ++ SNAPSHOT_TIMESTAMP

/-- Embeds `normalize_archived_url`: accepts protocol-relative, path-only and
fully-qualified archive links; anything else (including the empty string,
which is falsy in Python) yields `none`. -/
def normalize_archived_url (url : String) : Option String :=
  if url = "" then none
  else if pyStartsWith url "//web.archive.org/" then some ("https:" ++ url)
  else if pyStartsWith url "/web/" then some ("https://web.archive.org" ++ url)
  else if pyStartsWith url "https://web.archive.org/web/" then some url
  else if pyStartsWith url WAYBACK_PREFIX then some url
  else none

/-- Embeds `is_in_snapshot`: literal prefix test against the configured
snapshot prefix. -/
def is_in_snapshot (archived_url : String) : Bool :=
  pyStartsWith archived_url WAYBACK_PREFIX

/-- Character class `[a-z_\-]` of the capture-mode modifier in the
`extract_original_url` pattern. -/
def isModifierChar (c : Char) : Bool := ('a' ≤ c && c ≤ 'z') || c = '_' || c = '-'

/-- Tail of the `extract_original_url` pattern: `(https?://.+)$` where `.`
does not match a newline and `$` matches at the end of the string or just
before a terminal newline (Python `re` semantics without `re.DOTALL`). -/
def tailGroup (t : List Char) : Option (List Char) :=
  let after :=
    match dropLit "https://".data t with
    | some a => some a
    | none => dropLit "http://".data t
  match after with
  | none => none
  | some a =>
    if a = [] then none
    else if '\n' ∈ a then
      if a.getLast? = some '\n' ∧ '\n' ∉ a.dropLast ∧ a.dropLast ≠ [] then some t.dropLast
      else none
    else some t

/-- List-level body of `extract_original_url`, embedding the anchored match of
`^https?://web\.archive\.org/web/\d{14}[a-z_\-]*/(https?://.+)$`. -/
def extractOriginalList (s : List Char) : Option (List Char) :=
  let afterHost :=
    match dropLit "https://web.archive.org/web/".data s with
    | some r => some r
    | none => dropLit "http://web.archive.org/web/".data s
  match afterHost with
  | none => none
  | some r1 =>
    if (r1.take 14).length = 14 ∧ (r1.take 14).all Char.isDigit then
      let r3 := (r1.drop 14).dropWhile isModifierChar
      match r3 with
      | '/' :: t => tailGroup t
      | _ => none
    else none

/-- Embeds `extract_original_url`: recover the original address from an
archived address, or `none` when the shape does not match. -/
def extract_original_url (archived_url : String) : Option String :=
  (extractOriginalList archived_url.data).map (fun l => String.mk l)

/-! ## Local Path Mapper (`guess_local_path`, lines 57-69) and path helpers -/

/-- Characters allowed in a URL scheme by `urllib.parse` after the first. -/
def isSchemeChar (c : Char) : Bool := c.isAlphanum || c = '+' || c = '-' || c = '.'

/-- Strip a leading `scheme:` when present, as `urllib.parse.urlsplit` does
(first character alphabetic, the rest scheme characters, a colon present). -/
def splitSchemeRest (l : List Char) : List Char :=
  let pre := l.takeWhile (fun c => c != ':')
  if pre.length < l.length ∧ pre ≠ [] ∧ (pre.headD ' ').isAlpha = true ∧ pre.all isSchemeChar
  then l.drop (pre.length + 1) else l

/-- Embeds the `netloc`/`path` fields of `urllib.parse.urlparse`: after the
scheme, a `//`-introduced network location runs up to the first `/`, `?` or
`#`; the path is the remainder up to the first `#` and then `?`. -/
def urlparse_netloc_path (url : String) : String × String :=
  let l1 := splitSchemeRest url.data
  let nl :=
    match l1 with
    | '/' :: '/' :: r =>
      (r.takeWhile (fun c => c != '/' && c != '?' && c != '#'),
       r.dropWhile (fun c => c != '/' && c != '?' && c != '#'))
    | _ => ([], l1)
  let path := (nl.2.takeWhile (fun c => c != '#')).takeWhile (fun c => c != '?')
  (String.mk nl.1, String.mk path)

/-- Does `os.path.splitext` report a non-empty extension?  True iff the final
path segment contains a dot with at least one non-dot character before the
last dot. -/
def splitextHasExt (p : String) : Bool :=
  let base := (p.data.reverse.takeWhile (fun c => c != '/')).reverse
  if '.' ∈ base then
    ((base.reverse.dropWhile (fun c => c != '.')).tail.reverse).any (fun c => c != '.')
  else false

/-- Embeds `os.path.join` on POSIX for two components. -/
def posixJoin2 (a b : String) : String :=
  if pyStartsWith b "/" then b
  else if a = "" ∨ pyEndsWith a "/" then a ++ b
  else a ++ "/" ++ b

/-- Embeds `os.path.dirname` on POSIX. -/
def posixDirname (p : String) : String :=
  let head := (p.data.reverse.dropWhile (fun c => c != '/')).reverse
  if head ≠ [] ∧ ¬ head.all (fun c => c = '/')
  then String.mk (head.reverse.dropWhile (fun c => c = '/')).reverse
  else String.mk head

/-- Embeds Python's `lstrip("/")`. -/
def lstripSlash (s : String) : String := String.mk (s.data.dropWhile (fun c => c = '/'))

/-- Truthiness test `content_type and "text/html" in content_type` used on
lines 66 and 152 of the source: `None` and the empty string are falsy, and
`in` is the substring test. -/
def isHtmlContentType (content_type : Option String) : Bool :=
  match content_type with
  | none => false
  | some s => !(s = "") && isSubB "text/html".data s.data

/-- Embeds `guess_local_path`: decompose the original address into host and
path, default directory-like paths to `index.html`, add `.html` to an
extensionless path when the content type indicates markup, and join under
the root directory. -/
def guess_local_path (root_dir original_url : String) (content_type : Option String) : String :=
  let parsed := urlparse_netloc_path original_url
  let host := parsed.1
  let path0 := parsed.2
  let path1 :=
    if path0 = "" ∨ pyEndsWith path0 "/"
    then (if path0 = "" then "/" else path0) ++ "index.html" else path0
  let path2 :=
    if !(splitextHasExt path1) && isHtmlContentType content_type
    then path1 ++ ".html" else path1
  posixJoin2 (posixJoin2 root_dir host) (lstripSlash path2)

/-- Split a string on a separator character, keeping empty segments
(Python's `str.split(sep)` with an explicit single-character separator). -/
def splitOnChar (sep : Char) : List Char → List (List Char)
  | [] => [[]]
  | c :: rest =>
    let r := splitOnChar sep rest
    if c = sep then [] :: r
    else
      match r with
      | h :: t => (c :: h) :: t
      | [] => [[c]]

/-- Length of the longest common prefix of two segment lists. -/
def commonPrefixLen : List String → List String → Nat
  | a :: as, b :: bs => if a = b then commonPrefixLen as bs + 1 else 0
  | _, _ => 0

/-- Embeds `os.path.relpath` on POSIX for the already-relative, dot-free
paths the crawler produces (both arguments are rooted at the output
directory, so the `abspath` step of the library function cancels out):
split both paths into non-empty segments, drop the common prefix, and
prepend one `..` per remaining start segment. -/
def posixRelpath (path start : String) : String :=
  let pl := (splitOnChar '/' path.data).map String.mk |>.filter (fun s => s != "")
  let sl := (splitOnChar '/' start.data).map String.mk |>.filter (fun s => s != "")
  let i := commonPrefixLen pl sl
  let rel := List.replicate (sl.length - i) ".." ++ pl.drop i
  if rel = [] then "." else String.intercalate "/" rel

/-! ## Link Extractor (`find_links_to_follow`, lines 72-98)

The three `re.findall` passes are embedded as left-to-right scanners that
attempt a match at every position, emit the captured value and resume after
a successful match, and advance one character otherwise — the semantics of
non-overlapping scanning in Python's `re`. -/

/-- Case-insensitive literal match (the patterns use `re.IGNORECASE` and the
literals are lowercase): `some rest` iff the input starts with `pat` up to
ASCII lowercasing. -/
def matchCI : List Char → List Char → Option (List Char)
  | [], s => some s
  | _ :: _, [] => none
  | c :: p, d :: s => if d.toLower = c then matchCI p s else none

/-- Lazy capture `(.*?)` up to the closing quote `q`; `.` does not match a
newline, so a newline before the closing quote fails the match. -/
def takeToQuote (q : Char) : List Char → Option (List Char × List Char)
  | [] => none
  | c :: rest =>
    if c = q then some ([], rest)
    else if c = '\n' then none
    else (takeToQuote q rest).map (fun vr => (c :: vr.1, vr.2))

/-- Lazy capture `(.*?)` up to the closing quote under `re.DOTALL`
(the `srcset` pattern), where `.` also matches newlines. -/
def takeToQuoteDotall (q : Char) : List Char → Option (List Char × List Char)
  | [] => none
  | c :: rest =>
    if c = q then some ([], rest)
    else (takeToQuoteDotall q rest).map (fun vr => (c :: vr.1, vr.2))

/-- Match `\s*=\s*(["'])(.*?)\1` and return the captured value with the rest
of the input; `dotall` selects the `srcset` variant of the capture. -/
def matchEqQuote (dotall : Bool) (s : List Char) : Option (List Char × List Char) :=
  match s.dropWhile isPySpace with
  | '=' :: s2 =>
    match s2.dropWhile isPySpace with
    | q :: s4 =>
      if q = '"' ∨ q = '\'' then
        if dotall then takeToQuoteDotall q s4 else takeToQuote q s4
      else none
    | [] => none
  | _ => none

/-- Try the alternation `href|src|data-src|data-href` (prefix-free, so the
ordered alternation of `re` reduces to trying each) followed by the quoted
value at the current position. -/
def tryNamesAt (names : List (List Char)) (dotall : Bool) (s : List Char) :
    Option (List Char × List Char) :=
  match names with
  | [] => none
  | n :: rest =>
    match matchCI n s with
    | some afterName =>
      match matchEqQuote dotall afterName with
      | some vr => some vr
      | none => tryNamesAt rest dotall s
    | none => tryNamesAt rest dotall s

def attrNames : List (List Char) := ["href".data, "src".data, "data-src".data, "data-href".data]

/-- Scan for `\b(?:href|src|data-src|data-href)\s*=\s*(["'])(.*?)\1` matches.
`prevWord` tracks whether the previous character was a word character, which
decides the `\b` boundary (all alternatives start with a word character).
After a successful match the scan resumes after the closing quote, a
non-word character. -/
def scanAttrs (names : List (List Char)) (dotall : Bool) :
    Nat → Bool → List Char → List (List Char)
  | 0, _, _ => []
  | _ + 1, _, [] => []
  | fuel + 1, prevWord, c :: rest =>
    if prevWord then scanAttrs names dotall fuel (isWordChar c) rest
    else
      match tryNamesAt names dotall (c :: rest) with
      | some (v, r) => v :: scanAttrs names dotall fuel false r
      | none => scanAttrs names dotall fuel (isWordChar c) rest

/-- Match `\s*\)` (the close of a CSS `url(...)`). -/
def matchesCloseParen (s : List Char) : Option (List Char) :=
  match s.dropWhile isPySpace with
  | ')' :: r => some r
  | _ => none

/-- After the first captured character, extend the lazy `(.+?)` capture until
the closing quote `q` with `\s*\)` behind it; a quote not followed by the
close is absorbed into the capture (backtracking of the lazy quantifier). -/
def quoteLazyTail (q : Char) : List Char → Option (List Char × List Char)
  | [] => none
  | c :: rest =>
    if c = q then
      match matchesCloseParen rest with
      | some r => some ([], r)
      | none => (quoteLazyTail q rest).map (fun vr => (c :: vr.1, vr.2))
    else if c = '\n' then none
    else (quoteLazyTail q rest).map (fun vr => (c :: vr.1, vr.2))

/-- Lazy nonempty capture `(.+?)` closed by quote `q` and `\s*\)`. -/
def quoteLazy (q : Char) : List Char → Option (List Char × List Char)
  | [] => none
  | c :: rest =>
    if c = '\n' then none
    else (quoteLazyTail q rest).map (fun vr => (c :: vr.1, vr.2))

/-- Lazy nonempty capture `(.+?)` for the unquoted form, closed by `\s*\)`. -/
def cssNoQuote : List Char → Option (List Char × List Char)
  | [] => none
  | c :: rest =>
    if c = '\n' then none
    else
      match matchesCloseParen rest with
      | some r => some ([c], r)
      | none => (cssNoQuote rest).map (fun vr => (c :: vr.1, vr.2))

/-- Try `url\(\s*(["']?)(.+?)(\1)\s*\)` at the current position: the optional
quote group is preferred when a quote is present and falls back to the
unquoted capture (which then starts at the quote character) when the quoted
form cannot complete. -/
def tryCssAt (s : List Char) : Option (List Char × List Char) :=
  match dropLit "url(".data s with
  | none => none
  | some r0 =>
    match r0.dropWhile isPySpace with
    | [] => none
    | q :: r2 =>
      if q = '"' ∨ q = '\'' then
        match quoteLazy q r2 with
        | some vr => some vr
        | none => cssNoQuote (q :: r2)
      else cssNoQuote (q :: r2)

/-- Scan for CSS `url(...)` references (case-sensitive, no word boundary). -/
def scanCss : Nat → List Char → List (List Char)
  | 0, _ => []
  | _ + 1, [] => []
  | fuel + 1, c :: rest =>
    match tryCssAt (c :: rest) with
    | some (v, r) => v :: scanCss fuel r
    | none => scanCss fuel rest

/-- Embeds Python's `str.strip()`: remove leading and trailing whitespace. -/
def pyStrip (l : List Char) : List Char :=
  ((l.dropWhile isPySpace).reverse.dropWhile isPySpace).reverse

/-- Split a raw `srcset` value on commas and keep the leading URL token of
each entry (`part.strip().split(' ')[0]`). -/
def srcsetUrls (v : List Char) : List (List Char) :=
  (splitOnChar ',' v).map (fun part => (pyStrip part).takeWhile (fun c => c != ' '))

/-- Embeds `find_links_to_follow`: collect the candidate values of the three
reference shapes, normalize each, and keep the in-snapshot survivors.  The
Python function accumulates into a `set`; the model keeps a duplicate-free
list instead. -/
def find_links_to_follow (html : String) : List String :=
  let l := html.data
  let attrVals := scanAttrs attrNames false (l.length + 1) false l
  let srcsetRaw := scanAttrs ["srcset".data] true (l.length + 1) false l
  let srcsetVals := srcsetRaw.foldr (fun v acc => srcsetUrls v ++ acc) []
  let cssVals := scanCss (l.length + 1) l
  let cands := (attrVals ++ srcsetVals ++ cssVals).map (fun cl => String.mk cl)
  (((cands.filterMap normalize_archived_url).filter (fun u => is_in_snapshot u))).dedup

/-! ## Link Rewriter (`str.replace`, lines 176-182) -/

/-- Embeds Python's `str.replace` for a non-empty pattern: scan left to
right, replace each non-overlapping occurrence of `k` by `v`, and resume
after the inserted replacement.  The fuel argument (always instantiated
with the input length, which bounds the number of scan steps) keeps the
recursion structural. -/
def pyReplaceNE (k v : List Char) : Nat → List Char → List Char
  | 0, s => s
  | _ + 1, [] => []
  | fuel + 1, c :: rest =>
    if k.isPrefixOf (c :: rest) then v ++ pyReplaceNE k v fuel (rest.drop (k.length - 1))
    else c :: pyReplaceNE k v fuel rest

/-- Embeds Python's `str.replace` for the empty pattern, which inserts the
replacement before every character and at the end. -/
def pyReplaceEmpty (v : List Char) : List Char → List Char
  | [] => v
  | c :: rest => v ++ c :: pyReplaceEmpty v rest

/-- Embeds Python's `str.replace` on character lists. -/
def pyReplace (s k v : List Char) : List Char :=
  match k with
  | [] => pyReplaceEmpty v s
  | _ :: _ => pyReplaceNE k v s.length s

/-- Embeds Python's `str.replace` on strings. -/
def pyReplaceStr (s k v : String) : String := String.mk (pyReplace s.data k.data v.data)

/-- The rewrite pass of the crawl loop: fold `str.replace` over the
per-document replacement map in insertion order (lines 177-179). -/
def applyReplacements (reps : List (String × String)) (text : String) : String :=
  reps.foldl (fun acc kv => pyReplaceStr acc kv.1 kv.2) text

/-! ## Fetch Collaborator (`fetch`, lines 101-109) -/

/-- An HTTP response as the crawler observes it: a status code, a body and
an optional `Content-Type` header. -/
structure FetchResponse where
  status : Nat
  content : String
  contentType : Option String
deriving DecidableEq

/-- Embeds `fetch`: a transport-level failure (`none`, the `except` branch)
or a non-200 status yields `(None, None)`; a 200 response yields the body
together with the `Content-Type` header. -/
def fetch (resp : Option FetchResponse) : Option String × Option String :=
  match resp with
  | none => (none, none)
  | some r => if r.status = 200 then (some r.content, r.contentType) else (none, none)

/-! ## Crawl Scheduler (`crawl`, lines 112-188)

The network is a function `world : String → Option FetchResponse`
(`none` models a transport error / timeout).  The filesystem is an
initial-existence predicate `fsExists` plus ordered logs in the state:
`mkdirs` records the arguments of `os.makedirs` calls, `writes` the
`(path, data)` pairs written, `fetches` the addresses passed to `fetch`
and `enqueued` every address ever put on the frontier queue. -/

structure CrawlState where
  q : List String
  visited : List String
  fetches : List String
  enqueued : List String
  mkdirs : List String
  writes : List (String × String)
deriving DecidableEq

/-- Result of a crawl: `fatalSeed` models the diagnostic message plus
`sys.exit(1)` taken when the seed is not in-snapshot; `outOfFuel` is the
model artifact of the fuel running out. -/
inductive CrawlResult where
  | fatalSeed (st : CrawlState)
  | finished (st : CrawlState)
  | outOfFuel (st : CrawlState)
deriving DecidableEq

def CrawlResult.state : CrawlResult → CrawlState
  | .fatalSeed st => st
  | .finished st => st
  | .outOfFuel st => st

/-- Embeds `ensure_directory_for_file` (lines 21-24): create the containing
directory when it is non-empty and does not exist yet (it exists when it
pre-existed or was created earlier in this run). -/
def ensure_directory_for_file (fsExists : String → Bool) (st : CrawlState) (path : String) :
    CrawlState :=
  let directory := posixDirname path
  if directory ≠ "" ∧ ¬ (fsExists directory ∨ directory ∈ st.mkdirs)
  then { st with mkdirs := st.mkdirs ++ [directory] } else st

/-- Builds the per-document replacement map (lines 165-174): for each
extracted link whose original address is recoverable, map the link to the
relative path from the current document's directory to the link's own
local destination (backslashes replaced by forward slashes). -/
def buildReplacements (out_dir current_dir : String) (links : List String) :
    List (String × String) :=
  links.foldl (fun reps link =>
    match extract_original_url link with
    | none => reps
    | some orig =>
      let target_local := guess_local_path out_dir orig none
      let rel := posixRelpath target_local current_dir
      reps ++ [(link, pyReplaceStr rel "\\" "/")]) []

/-- Embeds the `while not q.empty()` loop of `crawl` (lines 133-188),
indexed by fuel.  Each iteration dequeues one address, skips it when
already visited, otherwise marks it visited, fetches it, and on success
saves it — rewriting and enqueuing links when the content type indicates
markup.  The `time.sleep` throttle has no observable effect in the model. -/
def crawlLoop (world : String → Option FetchResponse) (fsExists : String → Bool)
    (out_dir : String) : Nat → CrawlState → CrawlResult
  | 0, st => .outOfFuel st
  | fuel + 1, st =>
    match st.q with
    | [] => .finished st
    | current :: qrest =>
      if current ∈ st.visited then
        crawlLoop world fsExists out_dir fuel { st with q := qrest }
      else
        let st1 := { st with
          q := qrest
          visited := st.visited ++ [current]
          fetches := st.fetches ++ [current] }
        match fetch (world current) with
        | (none, _) => crawlLoop world fsExists out_dir fuel st1
        | (some content, content_type) =>
          let original_url := (extract_original_url current).getD current
          let local_path := guess_local_path out_dir original_url content_type
          let st2 := ensure_directory_for_file fsExists st1 local_path
          if isHtmlContentType content_type then
            let html_text := content
            let links := find_links_to_follow html_text
            let newLinks := links.filter (fun l => !st2.visited.contains l && is_in_snapshot l)
            let st3 := { st2 with q := st2.q ++ newLinks, enqueued := st2.enqueued ++ newLinks }
            let current_dir := if posixDirname local_path = "" then "." else posixDirname local_path
            let replacements := buildReplacements out_dir current_dir links
            let rewritten := applyReplacements replacements html_text
            crawlLoop world fsExists out_dir fuel
              { st3 with writes := st3.writes ++ [(local_path, rewritten)] }
          else
            crawlLoop world fsExists out_dir fuel
              { st2 with writes := st2.writes ++ [(local_path, content)] }

/-- Embeds `crawl` (lines 112-126): create the output directory when
missing, normalize the seed (falling back to the raw seed, Python's
`or`), abort with a diagnostic and a non-zero exit when the normalized
seed is not in-snapshot, and otherwise seed the frontier and drain it. -/
def crawl (world : String → Option FetchResponse) (fsExists : String → Bool)
    (start_archived_url out_dir : String) (fuel : Nat) : CrawlResult :=
  let st0 : CrawlState :=
    { q := [], visited := [], fetches := [], enqueued := [],
      mkdirs := if fsExists out_dir then [] else [out_dir], writes := [] }
  let normalized_start := (normalize_archived_url start_archived_url).getD start_archived_url
  if !is_in_snapshot normalized_start then .fatalSeed st0
  else crawlLoop world fsExists out_dir fuel
    { st0 with q := [normalized_start], enqueued := [normalized_start] }

/-- Links of one document as the loop extracts them: the in-snapshot links
found in the body of a successfully fetched markup response, and nothing
otherwise. -/
def docLinks (world : String → Option FetchResponse) (u : String) : List String :=
  match fetch (world u) with
  | (none, _) => []
  | (some content, content_type) =>
    if isHtmlContentType content_type then find_links_to_follow content else []

/-! ## Small facts about strings used by the claim proofs -/

theorem string_data_append (a b : String) : (a ++ b).data = a.data ++ b.data := rfl

theorem string_mk_data (s : String) : String.mk s.data = s := rfl

theorem string_data_ne_nil (s : String) (h : s ≠ "") : s.data ≠ [] := by
  intro hd
  cases s
  simp_all

theorem dropWhile_append_of_all (p : Char → Bool) (l₁ l₂ : List Char)
    (h : ∀ c ∈ l₁, p c = true) :
    List.dropWhile p (l₁ ++ l₂) = List.dropWhile p l₂ := by
  induction l₁ with
  | nil => rfl
  | cons c l ih =>
    simp only [List.cons_append, List.dropWhile_cons, h c (by simp)]
    exact ih (fun d hd => h d (by simp [hd]))

/-! ## Claim C1 — content-type independence of the Local Path Mapper -/

/-- C1 (counterexample): the claim that `guess_local_path` returns the same
destination path regardless of the content-type argument fails on the code:
for an extensionless path served as HTML, the fetch-destination call (content
type known) appends `.html` while the rewrite-target call (content type
`none`) does not. -/
theorem c1_counterexample :
    guess_local_path "out" "https://example.com/about" (some "text/html") =
      "out/example.com/about.html" ∧
    guess_local_path "out" "https://example.com/about" none = "out/example.com/about" ∧
    guess_local_path "out" "https://example.com/about" (some "text/html") ≠
      guess_local_path "out" "https://example.com/about" none := by
  refine ⟨by decide, by decide, by decide⟩

/-- C1 (amended): `guess_local_path` is a pure function of its arguments and
returns the same destination path for any two content-type arguments that
agree on whether they indicate markup (`"text/html"` substring of a truthy
value); in particular the two Scheduler calls agree exactly when the link's
path is directory-like or already carries an extension. -/
theorem c1_local_path_agrees_on_markup_class (root url : String) (ct1 ct2 : Option String)
    (h : isHtmlContentType ct1 = isHtmlContentType ct2) :
    guess_local_path root url ct1 = guess_local_path root url ct2 := by
  simp only [guess_local_path, h]

/-- C1 witness: a non-trivial instantiation of the amended purity theorem. -/
theorem c1_witness :
    isHtmlContentType (some "text/html") = isHtmlContentType (some "text/html; charset=utf-8") ∧
    guess_local_path "out" "https://example.com/a/b.css" (some "text/html") =
      guess_local_path "out" "https://example.com/a/b.css" (some "text/html; charset=utf-8") :=
  ⟨by decide, c1_local_path_agrees_on_markup_class _ _ _ _ (by decide)⟩

/-! ## Claim C5 — the fetch success criterion -/

/-- C5 (counterexample): the claim says every 2xx response yields the bytes,
but the code tests `status_code == 200` only, so the 2xx response 201 is
treated as a failure. -/
theorem c5_counterexample :
    fetch (some ⟨201, "body", some "text/html"⟩) = (none, none) ∧ 200 ≤ 201 ∧ 201 < 300 := by
  refine ⟨by decide, by decide, by decide⟩

/-- C5 (amended): `fetch` returns failure (no bytes, no content type) iff a
transport-level error occurs or the HTTP status is not exactly 200, and for
every 200 response it returns the body with the content-type label. -/
theorem c5_fetch_success_criterion (resp : Option FetchResponse) :
    (fetch resp = (none, none) ↔ resp = none ∨ ∃ r, resp = some r ∧ r.status ≠ 200) ∧
    (∀ r, resp = some r → r.status = 200 → fetch resp = (some r.content, r.contentType)) := by
  constructor
  · cases resp with
    | none => simp [fetch]
    | some r =>
      by_cases h : r.status = 200
      · simp [fetch, h]
      · simp [fetch, h]
  · rintro r rfl h
    simp [fetch, h]

/-- C5 witness: the amended criterion evaluated on a concrete 200 response. -/
theorem c5_witness :
    fetch (some ⟨200, "body", some "text/css"⟩) = (some "body", some "text/css") :=
  (c5_fetch_success_criterion (some ⟨200, "body", some "text/css"⟩)).2 _ rfl rfl

/-! ## Claim C8 — recoverOriginal round-trips on synthesized archived addresses -/

theorem tailGroup_total (rL : List Char) (OL : List Char)
    (h : OL = "http://".data ++ rL ∨ OL = "https://".data ++ rL) (hrL : rL ≠ [])
    (hnl : '\n' ∉ OL) : tailGroup OL = some OL := by
  have h1 : '\n' ∉ rL := by
    intro hc
    rcases h with h | h <;> exact hnl (h ▸ List.mem_append_right _ hc)
  rcases h with h | h <;> subst h
  · have h0 : dropLit "https://".data ("http://".data ++ rL) = none := rfl
    rw [tailGroup]
    simp only [h0, dropLit_append]
    simp [hrL, h1]
  · rw [tailGroup]
    simp only [dropLit_append]
    simp [hrL, h1]

theorem extractOriginalList_roundtrip (mL OL : List Char)
    (hm : ∀ c ∈ mL, isModifierChar c = true)
    (hO : tailGroup OL = some OL) :
    extractOriginalList
      ("https://web.archive.org/web/".data ++ ("20250408214013".data ++ (mL ++ '/' :: OL)))
      = some OL := by
  rw [extractOriginalList]
  simp only [dropLit_append]
  have e2 : (("20250408214013".data ++ (mL ++ '/' :: OL)).take 14) = "20250408214013".data :=
    List.take_left' (by decide)
  have e3 : (("20250408214013".data ++ (mL ++ '/' :: OL)).drop 14) = mL ++ '/' :: OL :=
    List.drop_left' (by decide)
  simp only [e2, e3]
  rw [if_pos ⟨by decide, by decide⟩]
  have e4 : List.dropWhile isModifierChar (mL ++ '/' :: OL) = '/' :: OL := by
    rw [dropWhile_append_of_all _ _ _ hm]
    rfl
  rw [e4]
  exact hO

/-- C8 (confirmed): for every original address `O` carrying its scheme
(`http://` or `https://` with a non-empty, newline-free remainder — the
regex classes `.` and `$` exclude interior newlines) and every capture-mode
modifier `m` drawn from `[a-z_\-]`, `extract_original_url` applied to the
synthesized archived address
`"https://web.archive.org/web/" ++ 20250408214013 ++ m ++ "/" ++ O`
returns exactly `O`. -/
theorem c8_recover_original_roundtrip (O m r : String)
    (hO : O = "http://" ++ r ∨ O = "https://" ++ r) (hr : r ≠ "")
    (hnl : '\n' ∉ O.data)
    (hm : ∀ c ∈ m.data, isModifierChar c = true) :
    extract_original_url ("https://web.archive.org/web/" ++ SNAPSHOT_TIMESTAMP ++ m ++ "/" ++ O)
      = some O := by
  have hdata : ("https://web.archive.org/web/" ++ SNAPSHOT_TIMESTAMP ++ m ++ "/" ++ O).data
      = "https://web.archive.org/web/".data ++
        ("20250408214013".data ++ (m.data ++ '/' :: O.data)) := by
    simp only [string_data_append, List.append_assoc]
    rfl
  have hOL : O.data = "http://".data ++ r.data ∨ O.data = "https://".data ++ r.data := by
    rcases hO with h | h
    · exact Or.inl (by rw [h]; rfl)
    · exact Or.inr (by rw [h]; rfl)
  rw [extract_original_url, hdata,
    extractOriginalList_roundtrip m.data O.data hm
      (tailGroup_total r.data O.data hOL (string_data_ne_nil r hr) hnl)]
  rfl

/-- C8 witness: the round-trip evaluated on a concrete original address with
the `im_` capture-mode modifier. -/
theorem c8_witness :
    ("https://jamstash.io/assets/x" = "http://" ++ "jamstash.io/assets/x" ∨
      "https://jamstash.io/assets/x" = "https://" ++ "jamstash.io/assets/x") ∧
    extract_original_url ("https://web.archive.org/web/" ++ SNAPSHOT_TIMESTAMP ++ "im_" ++ "/" ++
      "https://jamstash.io/assets/x") = some "https://jamstash.io/assets/x" :=
  ⟨Or.inr (by decide), c8_recover_original_roundtrip _ "im_" "jamstash.io/assets/x"
    (Or.inr (by decide)) (by decide) (by decide) (by decide)⟩

/-! ## Claim C7 — the Link Rewriter removes every mapped archived address

`applyReplacements` is the sequential `str.replace` pass of the crawl loop.
The original claim's proviso ("no map key is a substring of another key's
replacement value") is not enough: replacing can manufacture a fresh
occurrence of a key out of a replacement value juxtaposed with surviving
text (counterexample below).  The amended proviso asks the replacement
values to share no character with any key. -/

theorem isSub_of_isPre (k s : List Char) (h : isPre k s) : isSub k s := by
  obtain ⟨q, rfl⟩ := h
  exact ⟨[], q, rfl⟩

theorem mem_of_isSub (k s : List Char) (c : Char) (hc : c ∈ k) (h : isSub k s) : c ∈ s := by
  obtain ⟨p, q, rfl⟩ := h
  simp [hc]

theorem isSub_append_cases (k x y : List Char) (h : isSub k (x ++ y)) :
    isSub k x ∨ isSub k y ∨
      ∃ a b, k = a ++ b ∧ a ≠ [] ∧ b ≠ [] ∧ isSuf a x ∧ isPre b y := by
  obtain ⟨p, q, hpq⟩ := h
  rcases List.append_eq_append_iff.mp hpq with ⟨l, hl1, hl2⟩ | ⟨l, hl1, hl2⟩
  · -- p ++ k = x ++ l, y = l ++ q
    rcases List.append_eq_append_iff.mp hl1 with ⟨l2, ha, hb⟩ | ⟨l2, ha, hb⟩
    · -- x = p ++ l2, k = l2 ++ l
      rcases eq_or_ne l2 [] with rfl | hne2
      · refine Or.inr (Or.inl ⟨[], q, ?_⟩)
        simp only [List.nil_append] at hb ⊢
        rw [hl2, hb]
      · rcases eq_or_ne l [] with rfl | hne
        · refine Or.inl ⟨p, [], ?_⟩
          rw [List.append_nil] at hb
          rw [ha, hb, List.append_nil]
        · exact Or.inr (Or.inr ⟨l2, l, hb, hne2, hne, ⟨p, ha⟩, ⟨q, hl2⟩⟩)
    · -- p = x ++ l2, l = l2 ++ k
      refine Or.inr (Or.inl ⟨l2, q, ?_⟩)
      rw [hl2, hb, List.append_assoc]
  · -- x = (p ++ k) ++ l, q = l ++ y
    refine Or.inl ⟨p, l, ?_⟩
    rw [hl1, List.append_assoc]

theorem isSub_cons_elim (k : List Char) (c : Char) (t : List Char) (h : isSub k (c :: t)) :
    isPre k (c :: t) ∨ isSub k t := by
  obtain ⟨p, q, hpq⟩ := h
  cases p with
  | nil => exact Or.inl ⟨q, by simpa using hpq⟩
  | cons d p =>
    simp only [List.cons_append, List.cons.injEq] at hpq
    exact Or.inr ⟨p, q, hpq.2⟩

theorem isPre_cons_iff (c : Char) (k t : List Char) :
    isPre (c :: k) (c :: t) ↔ isPre k t := by
  constructor
  · rintro ⟨q, hq⟩
    simp only [List.cons_append, List.cons.injEq] at hq
    exact ⟨q, hq.2⟩
  · rintro ⟨q, rfl⟩
    exact ⟨q, rfl⟩

theorem pyReplaceNE_sub_pre (v : List Char) (hv : v ≠ []) :
    ∀ (fuel : Nat) (s k k' : List Char), s.length ≤ fuel → k ≠ [] → k' ≠ [] →
      (∀ c ∈ v, c ∉ k') →
      (isSub k' (pyReplaceNE k v fuel s) → isSub k' s) ∧
      (isPre k' (pyReplaceNE k v fuel s) → isPre k' s) := by
  intro fuel
  induction fuel with
  | zero => intro s k k' _ _ _ _; exact ⟨id, id⟩
  | succ fuel ih =>
    intro s k k' hlen hk hk' hd
    cases s with
    | nil => exact ⟨id, id⟩
    | cons c rest =>
      by_cases hpre : k.isPrefixOf (c :: rest) = true
      · -- s = k ++ t with t = rest.drop (k.length - 1)
        rw [pyReplaceNE, if_pos hpre]
        obtain ⟨t', ht'⟩ := (isPrefixOf_iff_isPre k (c :: rest)).mp hpre
        -- identify t' with the dropped remainder
        obtain ⟨d, k2, rfl⟩ : ∃ d k2, k = d :: k2 := by
          cases k with
          | nil => exact absurd rfl hk
          | cons d k2 => exact ⟨d, k2, rfl⟩
        have hck : c = d ∧ rest = k2 ++ t' := by
          simp only [List.cons_append, List.cons.injEq] at ht'
          exact ht'
        have hdrop : rest.drop ((d :: k2).length - 1) = t' := by
          rw [hck.2]
          simp
        rw [hdrop]
        have htlen : t'.length ≤ fuel := by
          have : rest.length ≤ fuel := by simpa using Nat.lt_succ_iff.mp (Nat.lt_of_lt_of_le (Nat.lt_succ_of_le (Nat.le_refl _)) hlen)
          have h2 : t'.length ≤ rest.length := by
            rw [hck.2]; simp
          omega
        have IH := ih t' (d :: k2) k' htlen hk hk' hd
        constructor
        · intro hsub
          rcases isSub_append_cases k' v _ hsub with h1 | h2 | ⟨a, b, hab, ha, hb, hsuf, hpreb⟩
          · -- k' inside v : impossible, v's characters avoid k'
            obtain ⟨c0, hc0⟩ := List.exists_mem_of_ne_nil k' hk'
            exact absurd hc0 (hd c0 (mem_of_isSub k' v c0 hc0 h1))
          · -- k' inside the recursive result
            obtain ⟨p, q, hpq⟩ := IH.1 h2
            refine ⟨(d :: k2) ++ p, q, ?_⟩
            rw [ht', hpq]
            simp [List.append_assoc]
          · -- k' straddles v and the rest
            obtain ⟨c0, hc0⟩ := List.exists_mem_of_ne_nil a ha
            have hcv : c0 ∈ v := by
              obtain ⟨p, hp⟩ := hsuf
              rw [hp]; simp [hc0]
            have hck' : c0 ∈ k' := by rw [hab]; simp [hc0]
            exact absurd hck' (hd c0 hcv)
        · intro hpre'
          obtain ⟨w, hw⟩ := hpre'
          obtain ⟨c1, k1, rfl⟩ : ∃ c1 k1, k' = c1 :: k1 := by
            cases k' with
            | nil => exact absurd rfl hk'
            | cons c1 k1 => exact ⟨c1, k1, rfl⟩
          obtain ⟨d1, v1, rfl⟩ : ∃ d1 v1, v = d1 :: v1 := by
            cases v with
            | nil => exact absurd rfl hv
            | cons d1 v1 => exact ⟨d1, v1, rfl⟩
          have hhead : c1 = d1 := by
            simpa using congrArg (fun l => l.head?) hw.symm
          have hc1v : c1 ∈ d1 :: v1 := by rw [hhead]; simp
          exact absurd (by simp : c1 ∈ c1 :: k1) (hd c1 hc1v)
      · rw [pyReplaceNE, if_neg hpre]
        have hrlen : rest.length ≤ fuel := by
          simp only [List.length_cons] at hlen; omega
        constructor
        · intro hsub
          rcases isSub_cons_elim k' c _ hsub with h1 | h2
          · -- k' is a prefix of c :: (recursive result)
            obtain ⟨c1, k1, rfl⟩ : ∃ c1 k1, k' = c1 :: k1 := by
              cases k' with
              | nil => exact absurd rfl hk'
              | cons c1 k1 => exact ⟨c1, k1, rfl⟩
            obtain ⟨w, hw⟩ := h1
            simp only [List.cons_append, List.cons.injEq] at hw
            obtain ⟨rfl, hw2⟩ := hw
            rcases eq_or_ne k1 [] with rfl | hk1
            · exact isSub_of_isPre _ _ ⟨rest, rfl⟩
            · have hd1 : ∀ ch ∈ v, ch ∉ k1 := fun ch hch hmem =>
                hd ch hch (by simp [hmem])
              have := (ih rest k k1 hrlen hk hk1 hd1).2 ⟨w, hw2⟩
              exact isSub_of_isPre _ _ ((isPre_cons_iff c k1 rest).mpr this)
          · obtain ⟨p, q, rfl⟩ := (ih rest k k' hrlen hk hk' hd).1 h2
            exact ⟨c :: p, q, rfl⟩
        · intro hpre'
          obtain ⟨c1, k1, rfl⟩ : ∃ c1 k1, k' = c1 :: k1 := by
            cases k' with
            | nil => exact absurd rfl hk'
            | cons c1 k1 => exact ⟨c1, k1, rfl⟩
          obtain ⟨w, hw⟩ := hpre'
          simp only [List.cons_append, List.cons.injEq] at hw
          obtain ⟨rfl, hw2⟩ := hw
          rcases eq_or_ne k1 [] with rfl | hk1
          · exact ⟨rest, rfl⟩
          · have hd1 : ∀ ch ∈ v, ch ∉ k1 := fun ch hch hmem =>
              hd ch hch (by simp [hmem])
            have := (ih rest k k1 hrlen hk hk1 hd1).2 ⟨w, hw2⟩
            exact (isPre_cons_iff c k1 rest).mpr this

theorem isSub_nil_elim (k : List Char) (h : isSub k []) : k = [] := by
  obtain ⟨p, q, hpq⟩ := h
  exact (List.append_eq_nil.mp (List.append_eq_nil.mp hpq.symm).1).2

theorem pyReplaceNE_removes (v k : List Char) (hv : v ≠ []) (hk : k ≠ [])
    (hd : ∀ c ∈ v, c ∉ k) :
    ∀ (fuel : Nat) (s : List Char), s.length ≤ fuel → ¬ isSub k (pyReplaceNE k v fuel s) := by
  intro fuel
  induction fuel with
  | zero =>
    intro s hlen hsub
    obtain rfl : s = [] := List.length_eq_zero.mp (Nat.le_zero.mp hlen)
    exact hk (isSub_nil_elim k hsub)
  | succ fuel ih =>
    intro s hlen hsub
    obtain ⟨d, k2, rfl⟩ : ∃ d k2, k = d :: k2 := by
      cases k with
      | nil => exact absurd rfl hk
      | cons d k2 => exact ⟨d, k2, rfl⟩
    cases s with
    | nil => exact hk (isSub_nil_elim _ hsub)
    | cons c rest =>
      by_cases hpre : (d :: k2).isPrefixOf (c :: rest) = true
      · rw [pyReplaceNE, if_pos hpre] at hsub
        obtain ⟨t', ht'⟩ := (isPrefixOf_iff_isPre _ (c :: rest)).mp hpre
        simp only [List.cons_append, List.cons.injEq] at ht'
        have hdrop : rest.drop ((d :: k2).length - 1) = t' := by
          rw [ht'.2]
          simp
        rw [hdrop] at hsub
        have htlen : t'.length ≤ fuel := by
          have h1 : rest.length ≤ fuel := by
            simp only [List.length_cons] at hlen; omega
          have h2 : t'.length ≤ rest.length := by rw [ht'.2]; simp
          omega
        rcases isSub_append_cases _ v _ hsub with h1 | h2 | ⟨a, b, hab, ha, hb, hsuf, hpreb⟩
        · exact absurd (by simp : d ∈ d :: k2) (fun _ => hd d (mem_of_isSub _ v d (by simp) h1) (by simp))
        · exact ih t' htlen h2
        · obtain ⟨c0, hc0⟩ := List.exists_mem_of_ne_nil a ha
          have hcv : c0 ∈ v := by
            obtain ⟨p, hp⟩ := hsuf
            rw [hp]; simp [hc0]
          have hck : c0 ∈ d :: k2 := by rw [hab]; simp [hc0]
          exact hd c0 hcv hck
      · rw [pyReplaceNE, if_neg hpre] at hsub
        have hrlen : rest.length ≤ fuel := by
          simp only [List.length_cons] at hlen; omega
        rcases isSub_cons_elim _ c _ hsub with h1 | h2
        · obtain ⟨w, hw⟩ := h1
          simp only [List.cons_append, List.cons.injEq] at hw
          obtain ⟨rfl, hw2⟩ := hw
          rcases eq_or_ne k2 [] with rfl | hk2
          · exact hpre ((isPrefixOf_iff_isPre _ _).mpr ⟨rest, rfl⟩)
          · have hd2 : ∀ ch ∈ v, ch ∉ k2 := fun ch hch hmem => hd ch hch (by simp [hmem])
            have hp2 : isPre k2 rest :=
              (pyReplaceNE_sub_pre v hv fuel rest (c :: k2) k2 hrlen (by simp) hk2 hd2).2 ⟨w, hw2⟩
            obtain ⟨q, hq⟩ := hp2
            exact hpre ((isPrefixOf_iff_isPre _ _).mpr ⟨q, by rw [hq]; rfl⟩)
        · exact ih rest hrlen h2

theorem applyReplacements_cons (k0 v0 : String) (rest : List (String × String)) (text : String) :
    applyReplacements ((k0, v0) :: rest) text = applyReplacements rest (pyReplaceStr text k0 v0) := rfl

theorem pyReplaceStr_data (s k v : String) :
    (pyReplaceStr s k v).data = pyReplace s.data k.data v.data := rfl

theorem pyReplace_sub (s k v k' : List Char) (hk : k ≠ []) (hv : v ≠ []) (hk' : k' ≠ [])
    (hd : ∀ c ∈ v, c ∉ k') (h : isSub k' (pyReplace s k v)) : isSub k' s := by
  obtain ⟨d, k2, rfl⟩ : ∃ d k2, k = d :: k2 := by
    cases k with
    | nil => exact absurd rfl hk
    | cons d k2 => exact ⟨d, k2, rfl⟩
  exact (pyReplaceNE_sub_pre v hv s.length s (d :: k2) k' (Nat.le_refl _) (by simp) hk' hd).1 h

theorem applyReplacements_preserves (k' : List Char) (hk' : k' ≠ []) :
    ∀ (reps : List (String × String)) (text : String),
      (∀ kv ∈ reps, kv.1.data ≠ []) →
      (∀ kv ∈ reps, kv.2.data ≠ []) →
      (∀ kv ∈ reps, ∀ c ∈ kv.2.data, c ∉ k') →
      ¬ isSub k' text.data → ¬ isSub k' (applyReplacements reps text).data := by
  intro reps
  induction reps with
  | nil => intro text _ _ _ h; exact h
  | cons kv0 rest ih =>
    intro text hkeys hvals hd h
    obtain ⟨k0, v0⟩ := kv0
    rw [applyReplacements_cons]
    refine ih (pyReplaceStr text k0 v0) (fun kv hm => hkeys kv (by simp [hm]))
      (fun kv hm => hvals kv (by simp [hm])) (fun kv hm => hd kv (by simp [hm])) ?_
    intro hsub
    rw [pyReplaceStr_data] at hsub
    exact h (pyReplace_sub text.data k0.data v0.data k' (hkeys (k0, v0) (by simp))
      (hvals (k0, v0) (by simp)) hk' (hd (k0, v0) (by simp)) hsub)

/-- C7 (amended): for every document text and every per-document replacement
map whose keys and values are non-empty and whose replacement values share
no character with any key (in particular no key is a substring of any
replacement value), the rewritten text contains zero literal occurrences of
any archived address that has an entry in the map. -/
theorem c7_rewrite_removes_disjoint_keys :
    ∀ (reps : List (String × String)) (text : String),
      (∀ kv ∈ reps, kv.1 ≠ "") →
      (∀ kv ∈ reps, kv.2 ≠ "") →
      (∀ kv ∈ reps, ∀ kv' ∈ reps, ∀ c ∈ kv'.2.data, c ∉ kv.1.data) →
      ∀ kv ∈ reps, ¬ isSub kv.1.data (applyReplacements reps text).data := by
  intro reps
  induction reps with
  | nil => intro text _ _ _ kv hm; simp at hm
  | cons kv0 rest ih =>
    intro text hkeys hvals hdisj kv hm
    obtain ⟨k0, v0⟩ := kv0
    rw [applyReplacements_cons]
    rcases List.mem_cons.mp hm with rfl | hm'
    · -- the head key is removed by its own pass and preserved absent afterwards
      have hk0 : k0.data ≠ [] := string_data_ne_nil _ (hkeys (k0, v0) (by simp))
      have hv0 : v0.data ≠ [] := string_data_ne_nil _ (hvals (k0, v0) (by simp))
      have hd00 : ∀ c ∈ v0.data, c ∉ k0.data := hdisj (k0, v0) (by simp) (k0, v0) (by simp)
      have hfree : ¬ isSub k0.data (pyReplaceStr text k0 v0).data := by
        rw [pyReplaceStr_data]
        obtain ⟨d, k2, hk⟩ : ∃ d k2, k0.data = d :: k2 := by
          cases hdk : k0.data with
          | nil => exact absurd hdk hk0
          | cons d k2 => exact ⟨d, k2, rfl⟩
        rw [hk]
        show ¬ isSub (d :: k2) (pyReplaceNE (d :: k2) v0.data text.data.length text.data)
        exact pyReplaceNE_removes v0.data (d :: k2) hv0 (by simp) (hk ▸ hd00)
          text.data.length text.data (Nat.le_refl _)
      exact applyReplacements_preserves k0.data hk0 rest (pyReplaceStr text k0 v0)
        (fun kv h => string_data_ne_nil _ (hkeys kv (by simp [h])))
        (fun kv h => string_data_ne_nil _ (hvals kv (by simp [h])))
        (fun kv h => hdisj (k0, v0) (by simp) kv (by simp [h])) hfree
    · exact ih (pyReplaceStr text k0 v0) (fun kv h => hkeys kv (by simp [h]))
        (fun kv h => hvals kv (by simp [h]))
        (fun kv h kv' h' => hdisj kv (by simp [h]) kv' (by simp [h'])) kv hm'

/-- C7 (counterexample): with the map `{"ab" : "a"}` — which satisfies the
claim's proviso, no key being a substring of another entry's replacement
value — rewriting the text `"abb"` yields `"ab"`, which still contains the
mapped key `"ab"`: the replacement value concatenated with the surviving
text re-creates an occurrence. -/
theorem c7_counterexample :
    (∀ kv ∈ [("ab", "a")], ∀ kv' ∈ [("ab", "a")], kv ≠ kv' →
      ¬ isSub (kv.1 : String).data (kv'.2 : String).data) ∧
    applyReplacements [("ab", "a")] "abb" = "ab" ∧
    isSub "ab".data (applyReplacements [("ab", "a")] "abb").data := by
  refine ⟨by decide, by decide, by decide⟩

/-- C7 witness: the amended theorem evaluated on a map whose value `"_"`
shares no character with the key `"ab"`. -/
theorem c7_witness :
    (∀ kv ∈ [("ab", "_")], (kv.1 : String) ≠ "") ∧
    (∀ kv ∈ [("ab", "_")], (kv.2 : String) ≠ "") ∧
    (∀ kv ∈ [("ab", "_")], ∀ kv' ∈ [("ab", "_")], ∀ c ∈ (kv'.2 : String).data,
      c ∉ (kv.1 : String).data) ∧
    ∀ kv ∈ [("ab", "_")], ¬ isSub (kv.1 : String).data
      (applyReplacements [("ab", "_")] "xabab!").data :=
  ⟨by decide, by decide, by decide,
    c7_rewrite_removes_disjoint_keys [("ab", "_")] "xabab!" (by decide) (by decide) (by decide)⟩

theorem ensure_directory_for_file_q (f : String → Bool) (st : CrawlState) (p : String) :
    (ensure_directory_for_file f st p).q = st.q := by
  rw [ensure_directory_for_file]; split <;> rfl

theorem ensure_directory_for_file_visited (f : String → Bool) (st : CrawlState) (p : String) :
    (ensure_directory_for_file f st p).visited = st.visited := by
  rw [ensure_directory_for_file]; split <;> rfl

theorem ensure_directory_for_file_fetches (f : String → Bool) (st : CrawlState) (p : String) :
    (ensure_directory_for_file f st p).fetches = st.fetches := by
  rw [ensure_directory_for_file]; split <;> rfl

theorem ensure_directory_for_file_enqueued (f : String → Bool) (st : CrawlState) (p : String) :
    (ensure_directory_for_file f st p).enqueued = st.enqueued := by
  rw [ensure_directory_for_file]; split <;> rfl

theorem ensure_directory_for_file_writes (f : String → Bool) (st : CrawlState) (p : String) :
    (ensure_directory_for_file f st p).writes = st.writes := by
  rw [ensure_directory_for_file]; split <;> rfl

theorem crawlLoop_step_nil (w : String → Option FetchResponse) (f : String → Bool)
    (o : String) (fuel : Nat) (st : CrawlState) (h : st.q = []) :
    crawlLoop w f o (fuel + 1) st = .finished st := by
  rw [crawlLoop, h]

theorem crawlLoop_step_skip (w : String → Option FetchResponse) (f : String → Bool)
    (o : String) (fuel : Nat) (st : CrawlState) (current : String) (qrest : List String)
    (h : st.q = current :: qrest) (hv : current ∈ st.visited) :
    crawlLoop w f o (fuel + 1) st = crawlLoop w f o fuel { st with q := qrest } := by
  rw [crawlLoop, h]
  simp [hv]

theorem crawlLoop_step_fail (w : String → Option FetchResponse) (f : String → Bool)
    (o : String) (fuel : Nat) (st : CrawlState) (current : String) (qrest : List String)
    (h : st.q = current :: qrest) (hv : current ∉ st.visited)
    (hf : fetch (w current) = (none, none)) :
    crawlLoop w f o (fuel + 1) st = crawlLoop w f o fuel
      { st with
        q := qrest
        visited := st.visited ++ [current]
        fetches := st.fetches ++ [current] } := by
  rw [crawlLoop, h]
  simp [hv, hf]

theorem crawlLoop_step_html (w : String → Option FetchResponse) (f : String → Bool)
    (o : String) (fuel : Nat) (st : CrawlState) (current : String) (qrest : List String)
    (content : String) (ct : Option String)
    (h : st.q = current :: qrest) (hv : current ∉ st.visited)
    (hf : fetch (w current) = (some content, ct)) (hct : isHtmlContentType ct = true) :
    crawlLoop w f o (fuel + 1) st =
      (let local_path := guess_local_path o ((extract_original_url current).getD current) ct
       let st2 := ensure_directory_for_file f
         { st with
           q := qrest
           visited := st.visited ++ [current]
           fetches := st.fetches ++ [current] } local_path
       let links := find_links_to_follow content
       let newLinks := links.filter (fun l => !st2.visited.contains l && is_in_snapshot l)
       let current_dir := if posixDirname local_path = "" then "." else posixDirname local_path
       crawlLoop w f o fuel
         { st2 with
           q := st2.q ++ newLinks
           enqueued := st2.enqueued ++ newLinks
           writes := st2.writes ++
             [(local_path, applyReplacements (buildReplacements o current_dir links) content)] }) := by
  rw [crawlLoop, h]
  simp [hv, hf, hct]

theorem crawlLoop_step_other (w : String → Option FetchResponse) (f : String → Bool)
    (o : String) (fuel : Nat) (st : CrawlState) (current : String) (qrest : List String)
    (content : String) (ct : Option String)
    (h : st.q = current :: qrest) (hv : current ∉ st.visited)
    (hf : fetch (w current) = (some content, ct)) (hct : isHtmlContentType ct = false) :
    crawlLoop w f o (fuel + 1) st =
      (let local_path := guess_local_path o ((extract_original_url current).getD current) ct
       let st2 := ensure_directory_for_file f
         { st with
           q := qrest
           visited := st.visited ++ [current]
           fetches := st.fetches ++ [current] } local_path
       crawlLoop w f o fuel
         { st2 with writes := st2.writes ++ [(local_path, content)] }) := by
  rw [crawlLoop, h]
  simp [hv, hf, hct]

theorem fetch_shape (r : Option FetchResponse) :
    fetch r = (none, none) ∨ ∃ c ct, fetch r = (some c, ct) := by
  rcases r with _ | r
  · exact Or.inl rfl
  · by_cases h : r.status = 200
    · exact Or.inr ⟨r.content, r.contentType, by simp [fetch, h]⟩
    · exact Or.inl (by simp [fetch, h])

/-- Induction principle for the crawl loop: a state predicate preserved by
the four loop branches holds of the resulting state. -/
theorem crawlLoop_preserves (w : String → Option FetchResponse) (f : String → Bool)
    (o : String) (P : CrawlState → Prop)
    (hskip : ∀ st current qrest, st.q = current :: qrest → current ∈ st.visited → P st →
      P { st with q := qrest })
    (hfail : ∀ st current qrest, st.q = current :: qrest → current ∉ st.visited →
      fetch (w current) = (none, none) → P st →
      P { st with
            q := qrest
            visited := st.visited ++ [current]
            fetches := st.fetches ++ [current] })
    (hhtml : ∀ st current qrest content ct, st.q = current :: qrest → current ∉ st.visited →
      fetch (w current) = (some content, ct) → isHtmlContentType ct = true → P st →
      (let local_path := guess_local_path o ((extract_original_url current).getD current) ct
       let st2 := ensure_directory_for_file f
         { st with
           q := qrest
           visited := st.visited ++ [current]
           fetches := st.fetches ++ [current] } local_path
       let links := find_links_to_follow content
       let newLinks := links.filter (fun l => !st2.visited.contains l && is_in_snapshot l)
       let current_dir := if posixDirname local_path = "" then "." else posixDirname local_path
       P { st2 with
             q := st2.q ++ newLinks
             enqueued := st2.enqueued ++ newLinks
             writes := st2.writes ++
               [(local_path, applyReplacements (buildReplacements o current_dir links) content)] }))
    (hother : ∀ st current qrest content ct, st.q = current :: qrest → current ∉ st.visited →
      fetch (w current) = (some content, ct) → isHtmlContentType ct = false → P st →
      (let local_path := guess_local_path o ((extract_original_url current).getD current) ct
       let st2 := ensure_directory_for_file f
         { st with
           q := qrest
           visited := st.visited ++ [current]
           fetches := st.fetches ++ [current] } local_path
       P { st2 with writes := st2.writes ++ [(local_path, content)] })) :
    ∀ (fuel : Nat) (st : CrawlState), P st → P (crawlLoop w f o fuel st).state := by
  intro fuel
  induction fuel with
  | zero => intro st hP; exact hP
  | succ fuel ih =>
    intro st hP
    cases hq : st.q with
    | nil => rw [crawlLoop_step_nil w f o fuel st hq]; exact hP
    | cons current qrest =>
      by_cases hv : current ∈ st.visited
      · rw [crawlLoop_step_skip w f o fuel st current qrest hq hv]
        exact ih _ (hskip st current qrest hq hv hP)
      · rcases fetch_shape (w current) with hf | ⟨content, ct, hf⟩
        · rw [crawlLoop_step_fail w f o fuel st current qrest hq hv hf]
          exact ih _ (hfail st current qrest hq hv hf hP)
        · by_cases hct : isHtmlContentType ct = true
          · rw [crawlLoop_step_html w f o fuel st current qrest content ct hq hv hf hct]
            exact ih _ (hhtml st current qrest content ct hq hv hf hct hP)
          · rw [crawlLoop_step_other w f o fuel st current qrest content ct hq hv hf
              (Bool.not_eq_true _ ▸ hct)]
            exact ih _ (hother st current qrest content ct hq hv hf
              (Bool.not_eq_true _ ▸ hct) hP)

theorem crawlLoop_zero (w : String → Option FetchResponse) (f : String → Bool)
    (o : String) (st : CrawlState) : crawlLoop w f o 0 st = .outOfFuel st := rfl

theorem crawlLoop_ne_fatal (w : String → Option FetchResponse) (f : String → Bool)
    (o : String) : ∀ (fuel : Nat) (st st' : CrawlState),
    crawlLoop w f o fuel st ≠ .fatalSeed st' := by
  intro fuel
  induction fuel with
  | zero => intro st st' h; rw [crawlLoop_zero] at h; exact CrawlResult.noConfusion h
  | succ fuel ih =>
    intro st st' h
    cases hq : st.q with
    | nil =>
      rw [crawlLoop_step_nil w f o fuel st hq] at h
      exact CrawlResult.noConfusion h
    | cons current qrest =>
      by_cases hv : current ∈ st.visited
      · rw [crawlLoop_step_skip w f o fuel st current qrest hq hv] at h
        exact ih _ _ h
      · rcases fetch_shape (w current) with hf | ⟨content, ct, hf⟩
        · rw [crawlLoop_step_fail w f o fuel st current qrest hq hv hf] at h
          exact ih _ _ h
        · by_cases hct : isHtmlContentType ct = true
          · rw [crawlLoop_step_html w f o fuel st current qrest content ct hq hv hf hct] at h
            exact ih _ _ h
          · rw [crawlLoop_step_other w f o fuel st current qrest content ct hq hv hf
              (Bool.not_eq_true _ ▸ hct)] at h
            exact ih _ _ h

theorem crawlLoop_finished_q_nil (w : String → Option FetchResponse) (f : String → Bool)
    (o : String) : ∀ (fuel : Nat) (st stf : CrawlState),
    crawlLoop w f o fuel st = .finished stf → stf.q = [] := by
  intro fuel
  induction fuel with
  | zero => intro st stf h; rw [crawlLoop_zero] at h; exact CrawlResult.noConfusion h
  | succ fuel ih =>
    intro st stf h
    cases hq : st.q with
    | nil =>
      rw [crawlLoop_step_nil w f o fuel st hq] at h
      cases h
      exact hq
    | cons current qrest =>
      by_cases hv : current ∈ st.visited
      · rw [crawlLoop_step_skip w f o fuel st current qrest hq hv] at h
        exact ih _ _ h
      · rcases fetch_shape (w current) with hf | ⟨content, ct, hf⟩
        · rw [crawlLoop_step_fail w f o fuel st current qrest hq hv hf] at h
          exact ih _ _ h
        · by_cases hct : isHtmlContentType ct = true
          · rw [crawlLoop_step_html w f o fuel st current qrest content ct hq hv hf hct] at h
            exact ih _ _ h
          · rw [crawlLoop_step_other w f o fuel st current qrest content ct hq hv hf
              (Bool.not_eq_true _ ▸ hct)] at h
            exact ih _ _ h

theorem crawlLoop_fetches_eq_visited (w : String → Option FetchResponse) (f : String → Bool)
    (o : String) (fuel : Nat) (st : CrawlState) (h : st.fetches = st.visited) :
    (crawlLoop w f o fuel st).state.fetches = (crawlLoop w f o fuel st).state.visited := by
  refine crawlLoop_preserves w f o (fun s => s.fetches = s.visited) ?_ ?_ ?_ ?_ fuel st h
  · intro st current qrest _ _ hP
    simpa using hP
  · intro st current qrest _ _ _ hP
    simpa using congrArg (fun l => l ++ [current]) hP
  · intro st current qrest content ct _ _ _ _ hP
    simp only [ensure_directory_for_file_fetches, ensure_directory_for_file_visited]
    simpa using congrArg (fun l => l ++ [current]) hP
  · intro st current qrest content ct _ _ _ _ hP
    simp only [ensure_directory_for_file_fetches, ensure_directory_for_file_visited]
    simpa using congrArg (fun l => l ++ [current]) hP

theorem crawlLoop_visited_nodup (w : String → Option FetchResponse) (f : String → Bool)
    (o : String) (fuel : Nat) (st : CrawlState) (h : st.visited.Nodup) :
    (crawlLoop w f o fuel st).state.visited.Nodup := by
  refine crawlLoop_preserves w f o (fun s => s.visited.Nodup) ?_ ?_ ?_ ?_ fuel st h
  · intro st current qrest _ _ hP
    simpa using hP
  · intro st current qrest _ hv _ hP
    simp [List.nodup_append, hP, hv]
  · intro st current qrest content ct _ hv _ _ hP
    simp only [ensure_directory_for_file_visited]
    simp [List.nodup_append, hP, hv]
  · intro st current qrest content ct _ hv _ _ hP
    simp only [ensure_directory_for_file_visited]
    simp [List.nodup_append, hP, hv]

theorem crawlLoop_visited_extend (w : String → Option FetchResponse) (f : String → Bool)
    (o : String) (fuel : Nat) (st : CrawlState) :
    ∃ d, (crawlLoop w f o fuel st).state.visited = st.visited ++ d := by
  refine crawlLoop_preserves w f o (fun s => ∃ d, s.visited = st.visited ++ d) ?_ ?_ ?_ ?_
    fuel st ⟨[], by simp⟩
  · intro st1 current qrest _ _ ⟨d, hd⟩
    exact ⟨d, hd⟩
  · intro st1 current qrest _ _ _ hP
    obtain ⟨d, hd⟩ := hP
    exact ⟨d ++ [current], by simp [hd]⟩
  · intro st1 current qrest content ct _ _ _ _ hP
    obtain ⟨d, hd⟩ := hP
    simp only [ensure_directory_for_file_visited]
    exact ⟨d ++ [current], by simp [hd]⟩
  · intro st1 current qrest content ct _ _ _ _ hP
    obtain ⟨d, hd⟩ := hP
    simp only [ensure_directory_for_file_visited]
    exact ⟨d ++ [current], by simp [hd]⟩

theorem crawlLoop_enqueued_extend (w : String → Option FetchResponse) (f : String → Bool)
    (o : String) (fuel : Nat) (st : CrawlState) :
    ∃ d, (crawlLoop w f o fuel st).state.enqueued = st.enqueued ++ d ∧
      ∀ u ∈ d, is_in_snapshot u = true := by
  refine crawlLoop_preserves w f o
    (fun s => ∃ d, s.enqueued = st.enqueued ++ d ∧ ∀ u ∈ d, is_in_snapshot u = true)
    ?_ ?_ ?_ ?_ fuel st ⟨[], by simp, by simp⟩
  · intro st1 current qrest _ _ hP
    exact hP
  · intro st1 current qrest _ _ _ hP
    exact hP
  · intro st1 current qrest content ct _ _ _ _ hP
    obtain ⟨d, hd, hsnap⟩ := hP
    simp only [ensure_directory_for_file_enqueued]
    refine ⟨d ++ (find_links_to_follow content).filter
      (fun l => !(ensure_directory_for_file f
        { st1 with
          q := qrest
          visited := st1.visited ++ [current]
          fetches := st1.fetches ++ [current] }
        (guess_local_path o ((extract_original_url current).getD current) ct)).visited.contains l
        && is_in_snapshot l), by simp [hd], ?_⟩
    intro u hu
    rcases List.mem_append.mp hu with h1 | h2
    · exact hsnap u h1
    · exact (Bool.and_eq_true _ _ |>.mp (List.mem_filter.mp h2).2).2
  · intro st1 current qrest content ct _ _ _ _ hP
    simpa only [ensure_directory_for_file_enqueued] using hP

theorem crawl_eq_fatal (w : String → Option FetchResponse) (f : String → Bool)
    (start o : String) (fuel : Nat)
    (h : is_in_snapshot ((normalize_archived_url start).getD start) = false) :
    crawl w f start o fuel = .fatalSeed
      { q := [], visited := [], fetches := [], enqueued := [],
        mkdirs := if f o then [] else [o], writes := [] } := by
  rw [crawl]
  simp [h]

theorem crawl_eq_loop (w : String → Option FetchResponse) (f : String → Bool)
    (start o : String) (fuel : Nat)
    (h : is_in_snapshot ((normalize_archived_url start).getD start) = true) :
    crawl w f start o fuel = crawlLoop w f o fuel
      { q := [(normalize_archived_url start).getD start], visited := [], fetches := [],
        enqueued := [(normalize_archived_url start).getD start],
        mkdirs := if f o then [] else [o], writes := [] } := by
  rw [crawl]
  simp [h]

/-- C4 (confirmed): a run aborts with a diagnostic and a non-zero exit
status exactly when the normalized seed address is not in-snapshot, and in
that case it aborts before any fetch and before any file is written; the
drain loop itself can never abort, so every per-resource failure after
seeding is contained and the loop continues. -/
theorem c4_only_bad_seed_aborts (w : String → Option FetchResponse) (f : String → Bool)
    (start o : String) (fuel : Nat) :
    ((∃ st, crawl w f start o fuel = .fatalSeed st) ↔
      is_in_snapshot ((normalize_archived_url start).getD start) = false) ∧
    (∀ st, crawl w f start o fuel = .fatalSeed st →
      st.fetches = [] ∧ st.writes = [] ∧ st.visited = []) ∧
    (∀ (fuel' : Nat) (st st' : CrawlState), crawlLoop w f o fuel' st ≠ .fatalSeed st') := by
  refine ⟨⟨?_, ?_⟩, ?_, crawlLoop_ne_fatal w f o⟩
  · rintro ⟨st, hst⟩
    by_contra hsnap
    rw [crawl_eq_loop w f start o fuel (by simpa using hsnap)] at hst
    exact crawlLoop_ne_fatal w f o fuel _ st hst
  · intro h
    exact ⟨_, crawl_eq_fatal w f start o fuel h⟩
  · intro st hst
    by_cases hsnap : is_in_snapshot ((normalize_archived_url start).getD start) = true
    · rw [crawl_eq_loop w f start o fuel hsnap] at hst
      exact absurd hst (crawlLoop_ne_fatal w f o fuel _ st)
    · rw [crawl_eq_fatal w f start o fuel (by simpa using hsnap)] at hst
      cases hst
      exact ⟨rfl, rfl, rfl⟩

theorem c4_witness :
    is_in_snapshot ((normalize_archived_url "https://example.com/").getD
      "https://example.com/") = false ∧
    ∃ st, crawl (fun _ => none) (fun _ => false) "https://example.com/" "out" 5 = .fatalSeed st :=
  ⟨by decide, (c4_only_bad_seed_aborts (fun _ => none) (fun _ => false)
    "https://example.com/" "out" 5).1.mpr (by decide)⟩

/-- C10 (confirmed): the output directory is created (when missing) before
the seed address is validated, so a run whose seed fails the in-snapshot
check exits non-zero with exactly that directory-creation recorded and no
fetches, no writes and an empty visited set. -/
theorem c10_outdir_created_before_seed_check (w : String → Option FetchResponse)
    (f : String → Bool) (start o : String) (fuel : Nat)
    (h : is_in_snapshot ((normalize_archived_url start).getD start) = false) :
    crawl w f start o fuel = .fatalSeed
      { q := [], visited := [], fetches := [], enqueued := [],
        mkdirs := if f o then [] else [o], writes := [] } := by
  rw [crawl]
  simp [h]

theorem c10_witness :
    is_in_snapshot ((normalize_archived_url "https://example.com/").getD
      "https://example.com/") = false ∧
    crawl (fun _ => none) (fun _ => false) "https://example.com/" "out" 5 = .fatalSeed
      { q := [], visited := [], fetches := [], enqueued := [],
        mkdirs := if (fun (_ : String) => false) "out" then [] else ["out"], writes := [] } :=
  ⟨by decide, c10_outdir_created_before_seed_check (fun _ => none) (fun _ => false)
    "https://example.com/" "out" 5 (by decide)⟩

/-- C9 (confirmed): throughout every crawl run, every address ever placed
on the frontier queue (the seed and every enqueued discovered link) is
classified in-snapshot; the fetch log coincides with the visited list — an
address is fetched exactly when it is added to the visited set, which is
consulted first — the visited list never repeats an address, and the
visited list only ever grows across the loop. -/
theorem c9_frontier_and_visited_invariants (w : String → Option FetchResponse)
    (f : String → Bool) (start o : String) (fuel : Nat) :
    (∀ u ∈ (crawl w f start o fuel).state.enqueued, is_in_snapshot u = true) ∧
    (crawl w f start o fuel).state.fetches = (crawl w f start o fuel).state.visited ∧
    (crawl w f start o fuel).state.visited.Nodup ∧
    (∀ (fuel' : Nat) (st : CrawlState),
      ∃ d, (crawlLoop w f o fuel' st).state.visited = st.visited ++ d) := by
  refine ⟨?_, ?_, ?_, fun fuel' st => crawlLoop_visited_extend w f o fuel' st⟩
  all_goals
    by_cases hsnap : is_in_snapshot ((normalize_archived_url start).getD start) = true
  · rw [crawl_eq_loop w f start o fuel hsnap]
    obtain ⟨d, hd, hsnapd⟩ := crawlLoop_enqueued_extend w f o fuel
      { q := [(normalize_archived_url start).getD start], visited := [], fetches := [],
        enqueued := [(normalize_archived_url start).getD start],
        mkdirs := if f o then [] else [o], writes := [] }
    rw [hd]
    intro u hu
    rcases List.mem_append.mp hu with h1 | h2
    · simp only [List.mem_singleton] at h1
      exact h1 ▸ hsnap
    · exact hsnapd u h2
  · rw [crawl_eq_fatal w f start o fuel (by simpa using hsnap)]
    intro u hu
    simp [CrawlResult.state] at hu
  · rw [crawl_eq_loop w f start o fuel hsnap]
    exact crawlLoop_fetches_eq_visited w f o fuel _ rfl
  · rw [crawl_eq_fatal w f start o fuel (by simpa using hsnap)]
    rfl
  · rw [crawl_eq_loop w f start o fuel hsnap]
    exact crawlLoop_visited_nodup w f o fuel _ List.nodup_nil
  · rw [crawl_eq_fatal w f start o fuel (by simpa using hsnap)]
    exact List.nodup_nil

theorem c9_witness :
    "https://web.archive.org/web/20250408214013/https://e.x/" ∈
      (crawl (fun _ => none) (fun _ => false)
        "https://web.archive.org/web/20250408214013/https://e.x/" "out" 3).state.enqueued ∧
    is_in_snapshot "https://web.archive.org/web/20250408214013/https://e.x/" = true :=
  ⟨by decide, (c9_frontier_and_visited_invariants (fun _ => none) (fun _ => false)
      "https://web.archive.org/web/20250408214013/https://e.x/" "out" 3).1 _ (by decide)⟩

theorem buildReplacements_keys_recoverable :
    ∀ (links : List String) (acc : List (String × String)) (od cd : String),
      (∀ kv ∈ acc, extract_original_url kv.1 ≠ none) →
      ∀ kv ∈ links.foldl (fun reps link =>
        match extract_original_url link with
        | none => reps
        | some orig =>
          reps ++ [(link, pyReplaceStr (posixRelpath (guess_local_path od orig none) cd)
            "\\" "/")]) acc,
        extract_original_url kv.1 ≠ none := by
  intro links
  induction links with
  | nil => intro acc od cd hacc kv hm; exact hacc kv hm
  | cons link rest ih =>
    intro acc od cd hacc kv hm
    simp only [List.foldl_cons] at hm
    cases hex : extract_original_url link with
    | none =>
      rw [hex] at hm
      exact ih acc od cd hacc kv hm
    | some orig =>
      rw [hex] at hm
      refine ih _ od cd ?_ kv hm
      intro kv' hkv'
      rcases List.mem_append.mp hkv' with h1 | h2
      · exact hacc kv' h1
      · simp only [List.mem_singleton] at h2
        subst h2
        simp [hex]

/-- C6 (amended): when the original address of the fetched document cannot
be recovered, the archived address itself is used as the origin for the
local path mapping and processing completes normally (never fatally); but
in the per-document replacement map the fallback does **not** apply —
every entry's key has a recoverable original address, unrecoverable links
being skipped. -/
theorem c6_fallback_origin_and_skipped_map_entries (w : String → Option FetchResponse)
    (f : String → Bool) (o u : String) (r : FetchResponse)
    (hw : w u = some r) (h200 : r.status = 200)
    (hct : isHtmlContentType r.contentType = false)
    (hex : extract_original_url u = none) :
    (∃ stf, crawlLoop w f o 2 ⟨[u], [], [], [u], [], []⟩ = .finished stf ∧
      stf.writes = [(guess_local_path o u r.contentType, r.content)] ∧
      stf.fetches = [u]) ∧
    (∀ (od cd : String) (links : List String) (kv : String × String),
      kv ∈ buildReplacements od cd links → extract_original_url kv.1 ≠ none) := by
  constructor
  · have hf : fetch (w u) = (some r.content, r.contentType) := by simp [fetch, hw, h200]
    rw [crawlLoop_step_other w f o 1 ⟨[u], [], [], [u], [], []⟩ u [] r.content r.contentType
      rfl (by simp) hf hct]
    simp only []
    rw [crawlLoop_step_nil w f o 0 _ (by simp [ensure_directory_for_file_q])]
    refine ⟨_, rfl, ?_, ?_⟩
    · simp [ensure_directory_for_file_writes, hex]
    · simp [ensure_directory_for_file_fetches]
  · intro od cd links kv hm
    exact buildReplacements_keys_recoverable links [] od cd (by simp) kv hm

def c6url : String := "https://web.archive.org/web/20250408214013/logo"

def c6resp : FetchResponse := ⟨200, "IMG", some "image/png"⟩

def c6world : String → Option FetchResponse := fun v => if v = c6url then some c6resp else none

theorem c6_counterexample :
    is_in_snapshot "https://web.archive.org/web/20250408214013/relative" = true ∧
    extract_original_url "https://web.archive.org/web/20250408214013/relative" = none ∧
    buildReplacements "out" "out/example.com"
      ["https://web.archive.org/web/20250408214013/relative"] = [] := by
  refine ⟨by decide, by decide, by decide⟩

theorem c6_witness :
    extract_original_url c6url = none ∧
    ((∃ stf, crawlLoop c6world (fun _ => false) "out" 2 ⟨[c6url], [], [], [c6url], [], []⟩ =
        .finished stf ∧
      stf.writes = [(guess_local_path "out" c6url c6resp.contentType, c6resp.content)] ∧
      stf.fetches = [c6url]) ∧
     (∀ (od cd : String) (links : List String) (kv : String × String),
        kv ∈ buildReplacements od cd links → extract_original_url kv.1 ≠ none)) :=
  ⟨by decide, c6_fallback_origin_and_skipped_map_entries c6world (fun _ => false) "out" c6url
    c6resp (by decide) rfl (by decide) (by decide)⟩

def seedUrl : String := "https://web.archive.org/web/20250408214013/https://example.com/"

def aboutUrl : String := "https://web.archive.org/web/20250408214013/https://example.com/about"

def seedHtml : String := "<a href=\"" ++ aboutUrl ++ "\">About</a>"

def aboutHtml : String := "<p>about page</p>"

def world2 : String → Option FetchResponse := fun u =>
  if u = seedUrl then some ⟨200, seedHtml, some "text/html"⟩
  else if u = aboutUrl then some ⟨200, aboutHtml, some "text/html"⟩
  else none

/-- C2 (counterexample): in the end-to-end scenario of the claim the crawl
writes `outputDir/example.com/index.html` and
`outputDir/example.com/about.html` — it never writes
`outputDir/example.com/about/index.html`, and no written document contains
the relative path `about/index.html` claimed for the rewritten link. -/
theorem c2_counterexample :
    (crawl world2 (fun _ => false) seedUrl "outputDir" 3).state.writes.map Prod.fst =
      ["outputDir/example.com/index.html", "outputDir/example.com/about.html"] ∧
    "outputDir/example.com/about/index.html" ∉
      (crawl world2 (fun _ => false) seedUrl "outputDir" 3).state.writes.map Prod.fst ∧
    ∀ kv ∈ (crawl world2 (fun _ => false) seedUrl "outputDir" 3).state.writes,
      ¬ isSub "about/index.html".data kv.2.data := by
  refine ⟨by decide, by decide, by decide⟩

/-- C2 (amended): for the seed address whose markup links to the in-snapshot
`about` page, one crawl pass writes `outputDir/example.com/index.html`
containing the relative reference `href="about"` and writes the about page
to `outputDir/example.com/about.html` (the fetch destination carries the
`.html` suffix because the content type is markup, while the rewrite target
is computed without it). -/
theorem c2_one_pass_mirror :
    crawl world2 (fun _ => false) seedUrl "outputDir" 3 = .finished
      { q := []
        visited := [seedUrl, aboutUrl]
        fetches := [seedUrl, aboutUrl]
        enqueued := [seedUrl, aboutUrl]
        mkdirs := ["outputDir", "outputDir/example.com"]
        writes := [("outputDir/example.com/index.html", "<a href=\"about\">About</a>"),
          ("outputDir/example.com/about.html", aboutHtml)] } ∧
    isSub "href=\"about\"".data "<a href=\"about\">About</a>".data := by
  refine ⟨by decide, by decide⟩

theorem find_links_in_snapshot (html : String) :
    ∀ l ∈ find_links_to_follow html, is_in_snapshot l = true := by
  intro l hl
  simp only [find_links_to_follow, List.mem_dedup, List.mem_filter] at hl
  exact hl.2

theorem find_links_nodup (html : String) : (find_links_to_follow html).Nodup := by
  simp only [find_links_to_follow]
  exact List.nodup_dedup _

theorem docLinks_of_fail (w : String → Option FetchResponse) (u : String)
    (hf : fetch (w u) = (none, none)) : docLinks w u = [] := by
  rw [docLinks, hf]

theorem docLinks_of_html (w : String → Option FetchResponse) (u content : String)
    (ct : Option String) (hf : fetch (w u) = (some content, ct))
    (hct : isHtmlContentType ct = true) : docLinks w u = find_links_to_follow content := by
  rw [docLinks, hf]
  simp [hct]

theorem docLinks_of_other (w : String → Option FetchResponse) (u content : String)
    (ct : Option String) (hf : fetch (w u) = (some content, ct))
    (hct : isHtmlContentType ct = false) : docLinks w u = [] := by
  rw [docLinks, hf]
  simp [hct]

/-- One address is reachable in one step from the visited set or is the seed. -/
def Reach (w : String → Option FetchResponse) (seed : String) (visited : List String)
    (v : String) : Prop :=
  v = seed ∨ ∃ u ∈ visited, v ∈ docLinks w u

theorem reach_mono (w : String → Option FetchResponse) (seed : String)
    (v1 v2 : List String) (h : ∀ x ∈ v1, x ∈ v2) (v : String)
    (hr : Reach w seed v1 v) : Reach w seed v2 v := by
  rcases hr with h1 | ⟨u, hu, hl⟩
  · exact Or.inl h1
  · exact Or.inr ⟨u, h u hu, hl⟩

/-- Loop invariant for the draining argument: the frontier and the visited
set stay inside the closed address universe `U`, the visited set is
duplicate-free and coincides with the fetch log, every link of a visited
document is accounted for (visited or frontier), and everything on the
frontier or in the visited set is discovered (the seed, or a link of a
visited document). -/
def CrawlInv (w : String → Option FetchResponse) (U : List String) (seed : String)
    (st : CrawlState) : Prop :=
  (∀ u ∈ st.q, u ∈ U) ∧ (∀ u ∈ st.visited, u ∈ U) ∧ st.visited.Nodup ∧
  st.fetches = st.visited ∧
  (∀ u ∈ st.visited, ∀ l ∈ docLinks w u, l ∈ st.visited ∨ l ∈ st.q) ∧
  (∀ v ∈ st.q, Reach w seed st.visited v) ∧
  (∀ v ∈ st.visited, Reach w seed st.visited v) ∧
  (seed ∈ st.visited ∨ seed ∈ st.q)

/-- Termination measure of the loop: frontier length plus a weighted count
of the not-yet-visited addresses of the universe. -/
def crawlMeasure (U : List String) (st : CrawlState) : Nat :=
  st.q.length + (U.length + 1) * ((U.toFinset \ st.visited.toFinset).card)

theorem length_le_of_nodup_subset (l L : List String) (hn : l.Nodup)
    (hsub : ∀ x ∈ l, x ∈ L) : l.length ≤ L.length := by
  calc l.length = l.toFinset.card := (List.toFinset_card_of_nodup hn).symm
    _ ≤ L.toFinset.card :=
      Finset.card_le_card (fun x hx => List.mem_toFinset.mpr (hsub x (List.mem_toFinset.mp hx)))
    _ ≤ L.length := L.toFinset_card_le

theorem visited_toFinset_append (l : List String) (a : String) :
    (l ++ [a]).toFinset = insert a l.toFinset := by
  rw [List.toFinset_append]
  simp [Finset.union_comm, Finset.insert_eq]

theorem sdiff_card_after_visit (U : List String) (vis : List String) (a : String)
    (haU : a ∈ U) (hav : a ∉ vis) :
    (U.toFinset \ (vis ++ [a]).toFinset).card = (U.toFinset \ vis.toFinset).card - 1 ∧
    0 < (U.toFinset \ vis.toFinset).card := by
  have hmem : a ∈ U.toFinset \ vis.toFinset :=
    Finset.mem_sdiff.mpr ⟨List.mem_toFinset.mpr haU, fun hc => hav (List.mem_toFinset.mp hc)⟩
  constructor
  · rw [visited_toFinset_append, Finset.sdiff_insert, Finset.card_erase_of_mem hmem]
  · exact Finset.card_pos.mpr ⟨a, hmem⟩

theorem docLinks_in_snapshot (w : String → Option FetchResponse) (u : String) :
    ∀ l ∈ docLinks w u, is_in_snapshot l = true := by
  rcases fetch_shape (w u) with hf | ⟨content, ct, hf⟩
  · rw [docLinks_of_fail w u hf]
    intro l hl
    simp at hl
  · by_cases hct : isHtmlContentType ct = true
    · rw [docLinks_of_html w u content ct hf hct]
      exact find_links_in_snapshot content
    · rw [docLinks_of_other w u content ct hf (Bool.not_eq_true _ ▸ hct)]
      intro l hl
      simp at hl

theorem docLinks_nodup (w : String → Option FetchResponse) (u : String) :
    (docLinks w u).Nodup := by
  rcases fetch_shape (w u) with hf | ⟨content, ct, hf⟩
  · rw [docLinks_of_fail w u hf]; exact List.nodup_nil
  · by_cases hct : isHtmlContentType ct = true
    · rw [docLinks_of_html w u content ct hf hct]; exact find_links_nodup content
    · rw [docLinks_of_other w u content ct hf (Bool.not_eq_true _ ▸ hct)]; exact List.nodup_nil

theorem mem_filter_new_links (vis links : List String) (l : String) :
    l ∈ links.filter (fun x => !vis.contains x && is_in_snapshot x) ↔
      l ∈ links ∧ l ∉ vis ∧ is_in_snapshot l = true := by
  simp [List.mem_filter, and_assoc]

/-- Any successful-dequeue branch of the loop (failed fetch, markup, or
other content) preserves the invariant and strictly decreases the measure:
the new state dequeues `current`, marks it visited and fetched, and appends
the filtered document links to the frontier. -/
theorem inv_fetch_step (w : String → Option FetchResponse) (U : List String) (seed : String)
    (hclosed : ∀ u ∈ U, ∀ l ∈ docLinks w u, l ∈ U)
    (st st' : CrawlState) (current : String) (qrest : List String) (links : List String)
    (hq : st.q = current :: qrest) (hv : current ∉ st.visited)
    (hlinks : links = docLinks w current)
    (hq' : st'.q = qrest ++ links.filter
      (fun l => !(st.visited ++ [current]).contains l && is_in_snapshot l))
    (hv' : st'.visited = st.visited ++ [current])
    (hf' : st'.fetches = st.fetches ++ [current])
    (hInv : CrawlInv w U seed st) :
    CrawlInv w U seed st' ∧ crawlMeasure U st' < crawlMeasure U st := by
  obtain ⟨hqU, hvU, hvN, hfv, hcov, hqR, hvR, hseed⟩ := hInv
  have hcur : current ∈ st.q := by rw [hq]; simp
  have hcurU : current ∈ U := hqU current hcur
  have hvmono : ∀ x ∈ st.visited, x ∈ st.visited ++ [current] := fun x hx => by simp [hx]
  have hcurv' : current ∈ st.visited ++ [current] := by simp
  constructor
  · refine ⟨?_, ?_, ?_, ?_, ?_, ?_, ?_, ?_⟩
    · -- frontier stays inside U
      intro u hu
      rw [hq'] at hu
      rcases List.mem_append.mp hu with h1 | h2
      · exact hqU u (by rw [hq]; simp [h1])
      · have := (mem_filter_new_links _ links u).mp h2
        exact hclosed current hcurU u (hlinks ▸ this.1)
    · -- visited stays inside U
      intro u hu
      rw [hv'] at hu
      rcases List.mem_append.mp hu with h1 | h2
      · exact hvU u h1
      · simp only [List.mem_singleton] at h2
        exact h2 ▸ hcurU
    · -- visited stays duplicate-free
      rw [hv']
      simp [List.nodup_append, hvN, hv]
    · -- fetch log equals visited list
      rw [hf', hv', hfv]
    · -- every link of a visited document is accounted for
      intro u hu l hl
      rw [hv'] at hu
      rcases List.mem_append.mp hu with h1 | h2
      · rcases hcov u h1 l hl with h3 | h4
        · exact Or.inl (by rw [hv']; simp [h3])
        · rw [hq] at h4
          rcases List.mem_cons.mp h4 with rfl | h5
          · exact Or.inl (by rw [hv']; simp)
          · exact Or.inr (by rw [hq']; simp [h5])
      · simp only [List.mem_singleton] at h2
        subst h2
        by_cases hmem : l ∈ st.visited ++ [u]
        · exact Or.inl (hv' ▸ hmem)
        · refine Or.inr ?_
          rw [hq']
          refine List.mem_append_right _ ((mem_filter_new_links _ links l).mpr
            ⟨hlinks ▸ hl, hmem, docLinks_in_snapshot w u l hl⟩)
    · -- everything on the frontier is discovered
      intro v hvq
      rw [hq'] at hvq
      rcases List.mem_append.mp hvq with h1 | h2
      · exact reach_mono w seed st.visited _ (hv' ▸ hvmono) v (hqR v (by rw [hq]; simp [h1]))
      · have := (mem_filter_new_links _ links v).mp h2
        exact Or.inr ⟨current, hv' ▸ hcurv', hlinks ▸ this.1⟩
    · -- everything visited is discovered
      intro v hvv
      rw [hv'] at hvv
      rcases List.mem_append.mp hvv with h1 | h2
      · exact reach_mono w seed st.visited _ (hv' ▸ hvmono) v (hvR v h1)
      · simp only [List.mem_singleton] at h2
        subst h2
        exact reach_mono w seed st.visited _ (hv' ▸ hvmono) v (hqR v hcur)
    · -- the seed is visited or on the frontier
      rcases hseed with h1 | h2
      · exact Or.inl (by rw [hv']; simp [h1])
      · rw [hq] at h2
        rcases List.mem_cons.mp h2 with rfl | h3
        · exact Or.inl (by rw [hv']; simp)
        · exact Or.inr (by rw [hq']; simp [h3])
  · -- the measure strictly decreases
    have hnodupNew : (links.filter
        (fun l => !(st.visited ++ [current]).contains l && is_in_snapshot l)).Nodup :=
      (hlinks ▸ docLinks_nodup w current).filter _
    have hsubNew : ∀ x ∈ links.filter
        (fun l => !(st.visited ++ [current]).contains l && is_in_snapshot l), x ∈ U :=
      fun x hx => hclosed current hcurU x (hlinks ▸ ((mem_filter_new_links _ links x).mp hx).1)
    have hlenNew := length_le_of_nodup_subset _ U hnodupNew hsubNew
    obtain ⟨hcard, hpos⟩ := sdiff_card_after_visit U st.visited current hcurU hv
    have hqlen : st.q.length = qrest.length + 1 := by rw [hq]; simp
    have hq'len : st'.q.length = qrest.length + (links.filter
        (fun l => !(st.visited ++ [current]).contains l && is_in_snapshot l)).length := by
      rw [hq']; simp
    set k := (U.toFinset \ st.visited.toFinset).card with hk
    have hmul : (U.length + 1) * k = (U.length + 1) * (k - 1) + (U.length + 1) := by
      have h1 : k - 1 + 1 = k := Nat.succ_pred_eq_of_pos hpos
      calc (U.length + 1) * k = (U.length + 1) * (k - 1 + 1) := by rw [h1]
        _ = (U.length + 1) * (k - 1) + (U.length + 1) := by rw [Nat.mul_succ]
    rw [crawlMeasure, crawlMeasure, hv', hcard, ← hk, hq'len, hqlen, hmul]
    omega

theorem inv_skip_step (w : String → Option FetchResponse) (U : List String) (seed : String)
    (st : CrawlState) (current : String) (qrest : List String)
    (hq : st.q = current :: qrest) (hv : current ∈ st.visited)
    (hInv : CrawlInv w U seed st) :
    CrawlInv w U seed { st with q := qrest } ∧
    crawlMeasure U { st with q := qrest } < crawlMeasure U st := by
  obtain ⟨hqU, hvU, hvN, hfv, hcov, hqR, hvR, hseed⟩ := hInv
  constructor
  · refine ⟨?_, hvU, hvN, hfv, ?_, ?_, hvR, ?_⟩
    · intro u hu
      exact hqU u (by rw [hq]; simp [hu])
    · intro u hu l hl
      rcases hcov u hu l hl with h1 | h2
      · exact Or.inl h1
      · rw [hq] at h2
        rcases List.mem_cons.mp h2 with rfl | h3
        · exact Or.inl hv
        · exact Or.inr h3
    · intro v hvq
      exact hqR v (by rw [hq]; simp [hvq])
    · rcases hseed with h1 | h2
      · exact Or.inl h1
      · rw [hq] at h2
        rcases List.mem_cons.mp h2 with rfl | h3
        · exact Or.inl hv
        · exact Or.inr h3
  · rw [crawlMeasure, crawlMeasure]
    have : st.q.length = qrest.length + 1 := by rw [hq]; simp
    simp only []
    omega

theorem crawlInv_congr (w : String → Option FetchResponse) (U : List String) (seed : String)
    (st st' : CrawlState) (hq : st'.q = st.q) (hv : st'.visited = st.visited)
    (hf : st'.fetches = st.fetches) (h : CrawlInv w U seed st) : CrawlInv w U seed st' := by
  obtain ⟨h1, h2, h3, h4, h5, h6, h7, h8⟩ := h
  exact ⟨hq ▸ h1, hv ▸ h2, hv ▸ h3, by rw [hf, hv, h4], by rw [hv, hq]; exact h5,
    by rw [hq, hv]; exact h6, by rw [hv]; exact h7, by rw [hv, hq]; exact h8⟩

theorem crawlMeasure_congr (U : List String) (st st' : CrawlState)
    (hq : st'.q = st.q) (hv : st'.visited = st.visited) :
    crawlMeasure U st' = crawlMeasure U st := by
  rw [crawlMeasure, crawlMeasure, hq, hv]

theorem crawlLoop_drains (w : String → Option FetchResponse) (f : String → Bool) (o : String)
    (U : List String) (seed : String)
    (hclosed : ∀ u ∈ U, ∀ l ∈ docLinks w u, l ∈ U) :
    ∀ (fuel : Nat) (st : CrawlState), CrawlInv w U seed st → crawlMeasure U st < fuel →
      ∃ stf, crawlLoop w f o fuel st = .finished stf ∧ CrawlInv w U seed stf ∧ stf.q = [] := by
  intro fuel
  induction fuel with
  | zero => intro st _ hM; exact absurd hM (Nat.not_lt_zero _)
  | succ fuel ih =>
    intro st hInv hM
    cases hq : st.q with
    | nil => exact ⟨st, crawlLoop_step_nil w f o fuel st hq, hInv, hq⟩
    | cons current qrest =>
      by_cases hv : current ∈ st.visited
      · rw [crawlLoop_step_skip w f o fuel st current qrest hq hv]
        obtain ⟨hI, hMlt⟩ := inv_skip_step w U seed st current qrest hq hv hInv
        exact ih _ hI (by omega)
      · rcases fetch_shape (w current) with hf | ⟨content, ct, hf⟩
        · rw [crawlLoop_step_fail w f o fuel st current qrest hq hv hf]
          have hstep := inv_fetch_step w U seed hclosed st
            { st with
              q := qrest
              visited := st.visited ++ [current]
              fetches := st.fetches ++ [current] }
            current qrest [] hq hv (docLinks_of_fail w current hf).symm
            (by simp) rfl rfl hInv
          exact ih _ hstep.1 (by have := hstep.2; omega)
        · by_cases hct : isHtmlContentType ct = true
          · rw [crawlLoop_step_html w f o fuel st current qrest content ct hq hv hf hct]
            simp only []
            have hstep := inv_fetch_step w U seed hclosed st
              ⟨qrest ++ (find_links_to_follow content).filter
                  (fun l => !(st.visited ++ [current]).contains l && is_in_snapshot l),
                st.visited ++ [current], st.fetches ++ [current], [], [], []⟩
              current qrest (find_links_to_follow content) hq hv
              (docLinks_of_html w current content ct hf hct).symm rfl rfl rfl hInv
            apply ih
            · refine crawlInv_congr w U seed _ _ ?_ ?_ ?_ hstep.1
              · simp only [ensure_directory_for_file_q, ensure_directory_for_file_visited]
              · simp only [ensure_directory_for_file_visited]
              · simp only [ensure_directory_for_file_fetches]
            · rw [crawlMeasure_congr U
                ⟨qrest ++ (find_links_to_follow content).filter
                    (fun l => !(st.visited ++ [current]).contains l && is_in_snapshot l),
                  st.visited ++ [current], st.fetches ++ [current], [], [], []⟩ _
                (by simp only [ensure_directory_for_file_q, ensure_directory_for_file_visited])
                (by simp only [ensure_directory_for_file_visited])]
              have := hstep.2
              omega
          · rw [crawlLoop_step_other w f o fuel st current qrest content ct hq hv hf
              (Bool.not_eq_true _ ▸ hct)]
            simp only []
            have hstep := inv_fetch_step w U seed hclosed st
              ⟨qrest, st.visited ++ [current], st.fetches ++ [current], [], [], []⟩
              current qrest [] hq hv
              (docLinks_of_other w current content ct hf (Bool.not_eq_true _ ▸ hct)).symm
              (by simp) rfl rfl hInv
            apply ih
            · refine crawlInv_congr w U seed _ _ ?_ ?_ ?_ hstep.1
              · simp only [ensure_directory_for_file_q]
              · simp only [ensure_directory_for_file_visited]
              · simp only [ensure_directory_for_file_fetches]
            · rw [crawlMeasure_congr U
                ⟨qrest, st.visited ++ [current], st.fetches ++ [current], [], [], []⟩ _
                (by simp only [ensure_directory_for_file_q])
                (by simp only [ensure_directory_for_file_visited])]
              have := hstep.2
              omega

/-- C3 (confirmed): for every finite link graph reachable from the seed —
any universe `U` of addresses containing the normalized seed and closed
under in-document link extraction, cyclic graphs included — the crawl
terminates with an empty frontier, every address is fetched at most once,
and every distinct discovered in-snapshot address (the seed and each link
of a fetched document) is fetched exactly once. -/
theorem c3_finite_graph_crawl_terminates (w : String → Option FetchResponse)
    (f : String → Bool) (start o : String) (U : List String)
    (hsnap : is_in_snapshot ((normalize_archived_url start).getD start) = true)
    (hU : (normalize_archived_url start).getD start ∈ U)
    (hclosed : ∀ u ∈ U, ∀ l ∈ docLinks w u, l ∈ U) :
    ∃ fuel stf, crawl w f start o fuel = .finished stf ∧ stf.q = [] ∧
      (∀ l, stf.fetches.count l ≤ 1) ∧
      (∀ l, (l = (normalize_archived_url start).getD start ∨
        ∃ u ∈ stf.fetches, l ∈ docLinks w u) → stf.fetches.count l = 1) := by
  have hInv0 : CrawlInv w U ((normalize_archived_url start).getD start)
      { q := [(normalize_archived_url start).getD start], visited := [], fetches := [],
        enqueued := [(normalize_archived_url start).getD start],
        mkdirs := if f o then [] else [o], writes := [] } := by
    refine ⟨?_, ?_, ?_, rfl, ?_, ?_, ?_, ?_⟩
    · intro u hu
      simp only [List.mem_singleton] at hu
      exact hu ▸ hU
    · intro u hu; simp at hu
    · exact List.nodup_nil
    · intro u hu; simp at hu
    · intro v hvq
      simp only [List.mem_singleton] at hvq
      exact Or.inl hvq
    · intro v hvv; simp at hvv
    · exact Or.inr (by simp)
  obtain ⟨stf, hloop, hInvf, hqf⟩ := crawlLoop_drains w f o U
    ((normalize_archived_url start).getD start) hclosed
    (crawlMeasure U
      { q := [(normalize_archived_url start).getD start], visited := [], fetches := [],
        enqueued := [(normalize_archived_url start).getD start],
        mkdirs := if f o then [] else [o], writes := [] } + 1) _ hInv0 (Nat.lt_succ_self _)
  refine ⟨crawlMeasure U
      { q := [(normalize_archived_url start).getD start], visited := [], fetches := [],
        enqueued := [(normalize_archived_url start).getD start],
        mkdirs := if f o then [] else [o], writes := [] } + 1, stf, ?_, hqf, ?_, ?_⟩
  · rw [crawl_eq_loop w f start o _ hsnap]
    exact hloop
  · obtain ⟨_, _, hvN, hfv, _, _, _, _⟩ := hInvf
    rw [hfv]
    exact List.nodup_iff_count_le_one.mp hvN
  · obtain ⟨hqU, hvU, hvN, hfv, hcov, hqR, hvR, hseed⟩ := hInvf
    intro l hl
    have hmem : l ∈ stf.fetches := by
      rcases hl with rfl | ⟨u, hu, hlu⟩
      · rcases hseed with h1 | h2
        · rw [hfv]; exact h1
        · rw [hqf] at h2; simp at h2
      · rw [hfv] at hu ⊢
        rcases hcov u hu l hlu with h1 | h2
        · exact h1
        · rw [hqf] at h2; simp at h2
    have h1 := List.nodup_iff_count_le_one.mp (hfv ▸ hvN) l
    have h2 : 0 < stf.fetches.count l := List.count_pos_iff.mpr hmem
    omega

def urlA : String := "https://web.archive.org/web/20250408214013/https://a.example/"

def urlB : String := "https://web.archive.org/web/20250408214013/https://b.example/"

def htmlA : String := "<a href=\"" ++ urlB ++ "\">to b</a>"

def htmlB : String := "<a href=\"" ++ urlA ++ "\">to a</a>"

/-- A two-page world with a cycle: page A links to page B and page B links
back to page A. -/
def worldCycle : String → Option FetchResponse := fun u =>
  if u = urlA then some ⟨200, htmlA, some "text/html"⟩
  else if u = urlB then some ⟨200, htmlB, some "text/html"⟩
  else none

theorem c3_witness :
    (is_in_snapshot ((normalize_archived_url urlA).getD urlA) = true ∧
      (normalize_archived_url urlA).getD urlA ∈ [urlA, urlB] ∧
      (∀ u ∈ [urlA, urlB], ∀ l ∈ docLinks worldCycle u, l ∈ [urlA, urlB])) ∧
    ∃ fuel stf, crawl worldCycle (fun _ => false) urlA "out" fuel = .finished stf ∧
      stf.q = [] ∧
      (∀ l, stf.fetches.count l ≤ 1) ∧
      (∀ l, (l = (normalize_archived_url urlA).getD urlA ∨
        ∃ u ∈ stf.fetches, l ∈ docLinks worldCycle u) → stf.fetches.count l = 1) :=
  ⟨⟨by decide, by decide, by decide⟩,
    c3_finite_graph_crawl_terminates worldCycle (fun _ => false) urlA "out" [urlA, urlB]
      (by decide) (by decide) (by decide)⟩
